import Mathlib

/-!
# Verification of the website2pdf crawler and PDF assembly pipeline

This development is a shallow embedding of `main.py` of the
`mltframework/website2pdf` repository.  Strings are modelled as `List Char`
(called `Str` below); the Python standard-library URL helpers used by the
source (`urlparse`, `urlunparse`, `urljoin`, `parse_qsl`, `urlencode`) are
embedded faithfully for ASCII inputs; SHA-256 is modelled as an abstract
injective-by-assumption fingerprint function supplied in the configuration
(the theorems never rely on properties of the hash beyond those the code
uses); the Playwright renderer and the BeautifulSoup link/title extraction
are external collaborators and are modelled as a finite map from raw URLs
to page data (content, effective title, rendered page count, anchor list).
Floating-point TOC layout coordinates are modelled exactly in integer
hundredths of a point; every comparison performed by the code is far from
the rounding error of the corresponding binary64 computation, so the
branch structure is identical.
-/

/-- Strings modelled as character lists, to keep list lemmas available. -/
abbrev Str := List Char

/-- Python `str.lower()` restricted to ASCII (all inputs in this
development are ASCII; `Char.toLower` agrees with Python there). -/
def lowerStr (s : Str) : Str := s.map Char.toLower

/-- Python `str.rstrip("/")`: remove every trailing `'/'`. -/
def rstripSlash (s : Str) : Str :=
  (s.reverse.dropWhile (fun c => c = '/')).reverse

/-- Split a list at the first occurrence of `d`; the delimiter is dropped.
Returns `none` when `d` does not occur.  Models Python `split(d, 1)`. -/
def splitFirst (d : Char) : Str → Option (Str × Str)
  | [] => none
  | c :: r =>
    if c = d then some ([], r)
    else match splitFirst d r with
      | none => none
      | some (a, b) => some (c :: a, b)

/-- Accumulator loop behind `splitAll` (structural recursion, so that
concrete URL computations reduce inside the kernel). -/
def splitAllGo (d : Char) (acc : Str) : Str → List Str
  | [] => [acc.reverse]
  | c :: r =>
    if c = d then acc.reverse :: splitAllGo d [] r
    else splitAllGo d (c :: acc) r

/-- Split at every occurrence of `d`, keeping empty pieces,
like Python `str.split(d)`. -/
def splitAll (d : Char) (s : Str) : List Str :=
  splitAllGo d [] s

/-- Join pieces with a single-character separator,
like Python `d.join(pieces)`. -/
def joinSep (d : Char) : List Str → Str
  | [] => []
  | [s] => s
  | s :: r => s ++ d :: joinSep d r

/-- Take the leading run of characters satisfying `p` together with the
remainder (used for netloc scanning). -/
def spanTake (p : Char → Bool) : Str → Str × Str
  | [] => ([], [])
  | c :: r =>
    if p c then
      let (a, b) := spanTake p r
      (c :: a, b)
    else ([], c :: r)

/-- Characters legal in a URL scheme after the first
(Python `urllib.parse.scheme_chars`). -/
def isSchemeChar (c : Char) : Bool :=
  c.isAlphanum || c = '+' || c = '-' || c = '.'

/-- The parsed components of a URL.  Python's `ParseResult` `params`
component is folded into `path` (the source never touches `params`, and
splitting the last path segment at `;` and re-joining is the identity, so
this is behaviour-preserving for URLs without `;` parameters, which is
every URL this program manipulates). -/
structure UrlParts where
  scheme : Str
  netloc : Str
  path : Str
  query : Str
  fragment : Str
  deriving DecidableEq

/-- Split off the fragment at the first `#` (Python
`url.split('#', 1)` guarded by `'#' in url`). -/
def fragSplit (b : Str) : Str × Str :=
  match splitFirst '#' b with
  | none => (b, [])
  | some (a, c) => (a, c)

/-- Split off the query at the first `?` (Python `url.split('?', 1)`
guarded by `'?' in url`). -/
def querySplit (b : Str) : Str × Str :=
  match splitFirst '?' b with
  | none => (b, [])
  | some (a, c) => (a, c)

/-- The netloc/fragment/query stages of `urlsplit`, applied to the input
with any scheme prefix already removed: a `//`-led netloc runs to the
first `/`, `?` or `#`, then the fragment splits off at the first `#` and
the query at the first `?`. -/
def netlocSplit (rest : Str) : Str × Str :=
  if rest.take 2 = ['/', '/'] then
    spanTake (fun c => !(c = '/' || c = '?' || c = '#')) (rest.drop 2)
  else ([], rest)

def urlparseTail (scheme rest : Str) : UrlParts :=
  let nl := netlocSplit rest
  let fq := fragSplit nl.2
  let pq := querySplit fq.1
  ⟨scheme, nl.1, pq.1, pq.2, fq.2⟩

/-- Python `urllib.parse.urlparse(url, scheme=dflt)` (via `urlsplit`):
detect a scheme (first `:` with a valid alphabetic-led prefix), then run
the remaining stages (`urlparseTail`). -/
def urlparse (url : Str) (dflt : Str := []) : UrlParts :=
  match splitFirst ':' url with
  | none => urlparseTail dflt url
  | some (pre, post) =>
    match pre with
    | [] => urlparseTail dflt url
    | c :: cs =>
      if c.isAlpha && (c :: cs).all isSchemeChar then
        urlparseTail (lowerStr (c :: cs)) post
      else urlparseTail dflt url

/-- Python `urllib.parse.urlunparse` (via `urlunsplit`), with `params`
folded into `path`. -/
def urlunparse (p : UrlParts) : Str :=
  let url := p.path
  let url :=
    if p.netloc ≠ [] ∨ (url.take 2 = ['/', '/']) then
      '/' :: '/' :: (p.netloc ++
        (if url ≠ [] ∧ url.take 1 ≠ ['/'] then '/' :: url else url))
    else url
  let url := if p.scheme ≠ [] then p.scheme ++ ':' :: url else url
  let url := if p.query ≠ [] then url ++ '?' :: p.query else url
  if p.fragment ≠ [] then url ++ '#' :: p.fragment else url

/-- Hex digit value, accepting both cases (Python `unquote` accepts both). -/
def hexVal (c : Char) : Option Nat :=
  if '0' ≤ c ∧ c ≤ '9' then some (c.toNat - '0'.toNat)
  else if 'a' ≤ c ∧ c ≤ 'f' then some (c.toNat - 'a'.toNat + 10)
  else if 'A' ≤ c ∧ c ≤ 'F' then some (c.toNat - 'A'.toNat + 10)
  else none

/-- Uppercase hex digit of a value `< 16` (Python `quote` emits uppercase). -/
def hexDigit (n : Nat) : Char :=
  if n < 10 then Char.ofNat ('0'.toNat + n) else Char.ofNat ('A'.toNat + n - 10)

/-- UTF-8 encoding of one character, as byte values. -/
def utf8Bytes (c : Char) : List Nat :=
  let n := c.toNat
  if n < 0x80 then [n]
  else if n < 0x800 then [0xC0 + n / 0x40, 0x80 + n % 0x40]
  else if n < 0x10000 then
    [0xE0 + n / 0x1000, 0x80 + n / 0x40 % 0x40, 0x80 + n % 0x40]
  else
    [0xF0 + n / 0x40000, 0x80 + n / 0x1000 % 0x40, 0x80 + n / 0x40 % 0x40,
      0x80 + n % 0x40]

/-- Characters never escaped by Python `urllib.parse.quote`
(`always_safe`: ASCII alphanumerics and `_.-~`). -/
def isAlwaysSafe (c : Char) : Bool :=
  c.isAlphanum || c = '_' || c = '.' || c = '-' || c = '~'

/-- Python `urllib.parse.quote_plus(s, safe='')` as used by `urlencode`:
space becomes `+`, unreserved characters pass through, everything else is
percent-encoded bytewise (uppercase hex) over its UTF-8 bytes. -/
def quote_plus (s : Str) : Str :=
  s.flatMap fun c =>
    if c = ' ' then ['+']
    else if isAlwaysSafe c then [c]
    else (utf8Bytes c).flatMap fun b => ['%', hexDigit (b / 16), hexDigit (b % 16)]

/-- Python `urllib.parse.unquote_plus` restricted to single-byte escapes:
`+` becomes space, a valid `%xy` escape decodes to the byte value as a
character, and malformed escapes are left verbatim (as Python does).
Multi-byte UTF-8 escape sequences would decode differently in Python; all
strings decoded in this development are ASCII, where the two agree. -/
def unquote_plus : Str → Str
  | [] => []
  | '+' :: r => ' ' :: unquote_plus r
  | '%' :: a :: b :: r =>
    match hexVal a, hexVal b with
    | some ha, some hb => Char.ofNat (16 * ha + hb) :: unquote_plus r
    | _, _ => '%' :: unquote_plus (a :: b :: r)
  | c :: r => c :: unquote_plus r

/-- Python `urllib.parse.parse_qsl(qs)` with default arguments: split on
`&`, skip empty pieces, skip pieces without `=` and pieces whose value is
empty (`keep_blank_values=False`), and percent-decode names and values. -/
def parse_qsl (qs : Str) : List (Str × Str) :=
  (splitAll '&' qs).foldr
    (fun nv acc =>
      if nv = [] then acc
      else match splitFirst '=' nv with
        | none => acc
        | some (n, v) =>
          if v = [] then acc else (unquote_plus n, unquote_plus v) :: acc)
    []

/-- Python `urllib.parse.urlencode(pairs)` with default arguments. -/
def urlencode (l : List (Str × Str)) : Str :=
  joinSep '&' (l.map fun kv => quote_plus kv.1 ++ '=' :: quote_plus kv.2)

/-- Code-point comparison of strings, as Python compares `str`. -/
def strLE (a b : Str) : Bool :=
  match a, b with
  | [], _ => true
  | _ :: _, [] => false
  | x :: xs, y :: ys =>
    if x.toNat < y.toNat then true
    else if y.toNat < x.toNat then false
    else strLE xs ys

/-- Python tuple comparison on `(name, value)` pairs of strings. -/
def pairLE (a b : Str × Str) : Bool :=
  match a, b with
  | (k1, v1), (k2, v2) =>
    if k1 = k2 then strLE v1 v2
    else strLE k1 k2

/-- Python `sorted` on a list of string pairs.  `pairLE` is antisymmetric
(code-point comparison), so every correct ascending sort computes the same
list and stability is immaterial; `insertionSort`, which reduces inside
the kernel, is therefore a faithful model of Python's stable sort. -/
def sortPairs (l : List (Str × Str)) : List (Str × Str) :=
  l.insertionSort fun a b => pairLE a b = true

/-- `normalize_url` from `main.py`: drop the fragment; lowercase the
netloc, strip one leading `www.`, strip a trailing `:80` or `:443`; strip
trailing slashes from the path; re-encode the query with its pairs
sorted; reassemble and lowercase the whole string. -/
def normalize_url (url : Str) : Str :=
  let parsed := urlparse url
  let parsed := { parsed with fragment := [] }
  let netloc := lowerStr parsed.netloc
  let netloc :=
    if ['w', 'w', 'w', '.'].isPrefixOf netloc then netloc.drop 4 else netloc
  let netloc :=
    if [':', '8', '0'].isSuffixOf netloc then netloc.dropLast.dropLast.dropLast
    else if [':', '4', '4', '3'].isSuffixOf netloc then
      netloc.dropLast.dropLast.dropLast.dropLast
    else netloc
  let path := rstripSlash parsed.path
  let query := urlencode (sortPairs (parse_qsl parsed.query))
  let parsed := { parsed with netloc := netloc, path := path, query := query }
  lowerStr (urlunparse parsed)

/-- `urllib.parse.uses_relative`. -/
def uses_relative : List Str :=
  [[], 'f':: 't':: 'p'::[], 'h':: 't':: 't':: 'p'::[], 'g':: 'o':: 'p':: 'h':: 'e':: 'r'::[],
    'n':: 'n':: 't':: 'p'::[], 'i':: 'm':: 'a':: 'p'::[], 'w':: 'a':: 'i':: 's'::[],
    'f':: 'i':: 'l':: 'e'::[], 'h':: 't':: 't':: 'p':: 's'::[], 's':: 'h':: 't':: 't':: 'p'::[],
    'm':: 'm':: 's'::[], 'p':: 'r':: 'o':: 's':: 'p':: 'e':: 'r':: 'o'::[],
    'r':: 't':: 's':: 'p'::[], 'r':: 't':: 's':: 'p':: 'u'::[], 's':: 'f':: 't':: 'p'::[],
    's':: 'v':: 'n'::[], 's':: 'v':: 'n':: '+':: 's':: 's':: 'h'::[],
    'w':: 's'::[], 'w':: 's':: 's'::[]]

/-- `urllib.parse.uses_netloc`. -/
def uses_netloc : List Str :=
  [[], 'f':: 't':: 'p'::[], 'h':: 't':: 't':: 'p'::[], 'g':: 'o':: 'p':: 'h':: 'e':: 'r'::[],
    'n':: 'n':: 't':: 'p'::[], 't':: 'e':: 'l':: 'n':: 'e':: 't'::[], 'i':: 'm':: 'a':: 'p'::[],
    'w':: 'a':: 'i':: 's'::[], 'f':: 'i':: 'l':: 'e'::[], 'm':: 'm':: 's'::[],
    'h':: 't':: 't':: 'p':: 's'::[], 's':: 'h':: 't':: 't':: 'p'::[],
    's':: 'n':: 'e':: 'w':: 's'::[], 'p':: 'r':: 'o':: 's':: 'p':: 'e':: 'r':: 'o'::[],
    'r':: 't':: 's':: 'p'::[], 'r':: 't':: 's':: 'p':: 'u'::[], 'r':: 's':: 'y':: 'n':: 'c'::[],
    's':: 'v':: 'n'::[], 's':: 'v':: 'n':: '+':: 's':: 's':: 'h'::[], 's':: 'f':: 't':: 'p'::[],
    'n':: 'f':: 's'::[], 'g':: 'i':: 't'::[], 'g':: 'i':: 't':: '+':: 's':: 's':: 'h'::[],
    'w':: 's'::[], 'w':: 's':: 's'::[]]

/-- The RFC 3986 dot-segment resolution loop inside `urljoin`. -/
def resolveSegments : List Str → List Str → List Str
  | acc, [] => acc
  | acc, seg :: rest =>
    if seg = ['.', '.'] then resolveSegments acc.dropLast rest
    else if seg = ['.'] then resolveSegments acc rest
    else resolveSegments (acc ++ [seg]) rest

/-- Python `urllib.parse.urljoin(base, url)` (CPython ≥ 3.5 algorithm),
with `params` folded into `path` as in `urlparse` above. -/
def urljoin (base url : Str) : Str :=
  if base = [] then url
  else if url = [] then base
  else
    let b := urlparse base
    let u := urlparse url b.scheme
    if u.scheme ≠ b.scheme ∨ u.scheme ∉ uses_relative then url
    else
      let netloc := if u.scheme ∈ uses_netloc then u.netloc else []
      if u.scheme ∈ uses_netloc ∧ u.netloc ≠ [] then
        urlunparse ⟨u.scheme, u.netloc, u.path, u.query, u.fragment⟩
      else
        let netloc := if netloc = [] then b.netloc else netloc
        if u.path = [] then
          let query := if u.query = [] then b.query else u.query
          urlunparse ⟨u.scheme, netloc, b.path, query, u.fragment⟩
        else
          let baseParts := splitAll '/' b.path
          let baseParts :=
            if baseParts.getLastD [] ≠ [] then baseParts.dropLast else baseParts
          let segments :=
            if u.path.take 1 = ['/'] then splitAll '/' u.path
            else
              let segs := baseParts ++ splitAll '/' u.path
              -- Python: segments[1:-1] = filter(None, segments[1:-1])
              match segs with
              | [] => []
              | [s] => [s]
              | s :: rest =>
                s :: ((rest.dropLast.filter (fun x => x ≠ [])) ++ [rest.getLastD []])
          let resolved := resolveSegments [] segments
          let resolved :=
            if segments.getLastD [] = ['.'] ∨ segments.getLastD [] = ['.', '.'] then
              resolved ++ [[]]
            else resolved
          let joined := joinSep '/' resolved
          let path := if joined = [] then ['/'] else joined
          urlunparse ⟨u.scheme, netloc, path, u.query, u.fragment⟩

/-- `re.sub(r"[^a-zA-Z0-9]", "_", s)`: the filename-safe token. -/
def sanitize (s : Str) : Str :=
  s.map fun c => if c.isAlphanum then c else '_'

/-- `os.path.join(OUTPUT_DIR, f"{sanitized_url}.pdf")` with
`OUTPUT_DIR = "website_pdfs"`. -/
def pdfPath (normalizedUrl : Str) : Str :=
  ('w':: 'e':: 'b':: 's':: 'i':: 't':: 'e':: '_':: 'p':: 'd':: 'f':: 's':: '/'::[]) ++
    sanitize normalizedUrl ++ ('.':: 'p':: 'd':: 'f'::[])

/-- Python `a in b` on strings: contiguous-substring test. -/
def isSubstr (a : Str) : Str → Bool
  | [] => a.isEmpty
  | c :: r => a.isPrefixOf (c :: r) || isSubstr a r

/-- The link-text filter of `crawl_and_save_pdf` (lines 119–123 of
`main.py`), verbatim: `any(len(link_text) == 0 or
exclude_text.lower() in link_text.lower() for exclude_text in
exclude_texts)`.  Note the emptiness test lives *inside* the `any`. -/
def skipLink (excludeTexts : List Str) (linkText : Str) : Bool :=
  excludeTexts.any fun ex =>
    linkText.length = 0 || isSubstr (lowerStr ex) (lowerStr linkText)

/-- `urlparse(u).netloc`, the host comparison key used by the crawler. -/
def netlocOf (u : Str) : Str := (urlparse u).netloc

/-- One page as delivered by the external collaborators: the raw HTML
(`page.content()`), the effective title (first non-empty `<h1>` text, else
the page title — the extraction itself is external), the page count of the
document `page.pdf` renders, and the anchor `(text, href)` pairs
BeautifulSoup extracts, in document order. -/
structure Page where
  content : Str
  title : Str
  pdfPages : Nat
  links : List (Str × Str)
  deriving DecidableEq

/-- The site: a finite map from raw URL to page; `none` models a
navigation/render failure (`page.goto` raising), which the code catches. -/
def lookupPage (env : List (Str × Page)) (url : Str) : Option Page :=
  (env.find? fun e => e.1 = url).map (·.2)

/-- One entry of `pdf_info` as appended during traversal (lines 97–105).
`docPages` carries the page count of the snapshot stored at `filePath`
(determined by the renderer at store time; it is read back from the file
during assembly). -/
structure PageRecord where
  title : Str
  url : Str
  filePath : Str
  docPages : Nat
  deriving DecidableEq

/-- The mutable crawl state: `visited` and `visited_hashes` model the two
Python sets (as lists, newest first — only membership is ever queried, and
insertion order makes the proofs sharper); `pdfInfo` is the `pdf_info`
list in append order.  `rendered` is an observation log, not program
state: it records the canonical URL each time the render step
(`page.goto` + `page.content()`) succeeds, so that "rendered at most once"
claims can be stated. -/
structure CrawlState where
  visited : List Str
  visitedHashes : List Str
  pdfInfo : List PageRecord
  rendered : List Str
  deriving DecidableEq

/-- The crawl-wide constants: the site map, the root URL (passed as both
start URL and `base_url` by `main`), the depth bound, the excluded link
texts, and the content-fingerprint function modelling
`hashlib.sha256(content.encode()).hexdigest()`. -/
structure Config where
  env : List (Str × Page)
  baseUrl : Str
  maxDepth : Nat
  excludeTexts : List Str
  hashFn : Str → Str

def initState : CrawlState := ⟨[], [], [], []⟩

/-- `crawl_and_save_pdf` from `main.py`, lines 46–152, as a fuelled
recursive function (the Python recursion has no structural measure; every
theorem below holds for every fuel value, and concrete runs use ample
fuel).  Faithful structure: normalize; stop if visited or too deep; mark
visited; render (a failure is caught and leaves only the visited mark);
fingerprint the HTML and stop on a duplicate; store the snapshot and
append the `pdf_info` record; then walk the anchors in order, skipping by
link text, by netloc comparison against the raw base URL, and by
visitedness, recursing at `depth + 1` with the state threaded through. -/
def crawl (cfg : Config) : Nat → Str → Nat → CrawlState → CrawlState
  | 0, _, _, s => s
  | fuel + 1, url, depth, s =>
    let normalizedUrl := normalize_url url
    if normalizedUrl ∈ s.visited ∨ depth > cfg.maxDepth then s
    else
      let s := { s with visited := normalizedUrl :: s.visited }
      match lookupPage cfg.env url with
      | none => s
      | some pg =>
        let s := { s with rendered := normalizedUrl :: s.rendered }
        let contentHash := cfg.hashFn pg.content
        if contentHash ∈ s.visitedHashes then s
        else
          let s := { s with
            visitedHashes := contentHash :: s.visitedHashes,
            pdfInfo := s.pdfInfo ++
              [⟨pg.title, normalizedUrl, pdfPath normalizedUrl, pg.pdfPages⟩] }
          pg.links.foldl
            (fun st link =>
              let nextUrl := urljoin cfg.baseUrl link.2
              let normalizedNextUrl := normalize_url nextUrl
              if skipLink cfg.excludeTexts link.1 then st
              else if netlocOf normalizedNextUrl = netlocOf cfg.baseUrl ∧
                  normalizedNextUrl ∉ st.visited then
                crawl cfg fuel nextUrl (depth + 1) st
              else st)
            s

/-- A `pdf_info` entry after `combine_pdfs` has filled `num_pages` and
`start_page`. -/
structure AsmRecord where
  title : Str
  url : Str
  filePath : Str
  docPages : Nat
  numPages : Nat
  startPage : Nat
  deriving DecidableEq

/-- One page of the merged output, tagged with its source: a TOC page or
page `i` of the per-page document stored at `path`. -/
inductive PageSrc where
  | toc (i : Nat)
  | doc (path : Str) (i : Nat)
  deriving DecidableEq

/-- The loop body of `combine_pdfs` (lines 218–225): for each record read
its stored document (whose page count is `docPages`), set `num_pages` and
`start_page` from the running counter, advance the counter, and append the
document's pages to the writer. -/
def combineGo : Nat → List PageSrc → List PageRecord →
    List AsmRecord × Nat × List PageSrc
  | total, writer, [] => ([], total, writer)
  | total, writer, r :: rs =>
    let numPages := r.docPages
    let a : AsmRecord := ⟨r.title, r.url, r.filePath, r.docPages, numPages, total⟩
    let writer := writer ++ (List.range numPages).map (PageSrc.doc r.filePath)
    let rest := combineGo (total + numPages) writer rs
    (a :: rest.1, rest.2)

/-- `combine_pdfs` (lines 208–229): start the writer with the TOC
document's pages and the counter at the TOC page count, then run the
record loop.  Returns the filled records, the final counter, and the
merged page list. -/
def combine_pdfs (tocPages : Nat) (records : List PageRecord) :
    List AsmRecord × Nat × List PageSrc :=
  combineGo tocPages ((List.range tocPages).map PageSrc.toc) records

/-- The clickable rectangle of one TOC line.  Coordinates are exact and
expressed in hundredths of a PDF point (centi-points), an integer
representation of the decimal values the code computes with floats
(`0.87 * 792 = 689.04` becomes `68904`): scaling by 100 is a strictly
monotone bijection, so every comparison the layout loop makes
(`y_position < 50`, i.e. `< 5000` centi-points) decides identically; the
float rounding error of binary64 on these quantities is below `10⁻¹⁰`,
far from every decision boundary the loop reaches. -/
structure TocRect where
  x1 : Int
  y1 : Int
  x2 : Int
  y2 : Int
  deriving DecidableEq

/-- `page_size[1] = 11 * 72 = 792` points, in centi-points. -/
def tocPageHeight : Int := 79200

/-- `y_position = 0.87 * page_size[1] = 689.04` points — the top of the
entry column on every TOC page — in centi-points. -/
def tocStartY : Int := 87 * tocPageHeight / 100

/-- Title shortening (lines 176–178): keep at most 60 characters, else
truncate to 57 and add an ellipsis. -/
def truncTitle (t : Str) : Str :=
  if t.length ≤ 60 then t else t.take 57 ++ ('.' :: '.' :: '.' :: [])

/-- The entry loop of `create_table_of_contents` (lines 174–200): draw
each title at the current `y_position`, record its rectangle on the
current page, step down 20 points, and start a new page (appending a new
empty rectangle list) when `y_position` drops below 50.  `sw` is the
external `canvas.stringWidth` metric (in centi-points, like all
coordinates here). -/
def tocGo (sw : Str → Int) : List Str → Int → List TocRect →
    List (List TocRect) → List (List TocRect)
  | [], _, cur, fin => fin ++ [cur]
  | t :: ts, y, cur, fin =>
    let w := sw (truncTitle t)
    let rect : TocRect := ⟨5000, y - 200, 5000 + w, y + 1000⟩
    let cur' := cur ++ [rect]
    let y' := y - 2000
    if y' < 5000 then tocGo sw ts tocStartY [] (fin ++ [cur'])
    else tocGo sw ts y' cur' fin

/-- `create_table_of_contents` (lines 155–205).  Only the `title` field of
each `pdf_info` entry feeds the layout, so the model consumes the title
list; the returned value is `link_rects`, the rectangles grouped by the
TOC page they were drawn on. -/
def create_table_of_contents (sw : Str → Int) (titles : List Str) :
    List (List TocRect) :=
  tocGo sw titles tocStartY [] []

/-- Page count of the TOC document reportlab writes: every page finished
by `showPage` during the loop is emitted, and `Canvas.save` emits the
last, still-open page exactly when something was drawn on it — the first
page always carries the header, and a continuation page carries content
exactly when some entry rectangle landed on it. -/
def tocPageCount (rects : List (List TocRect)) : Nat :=
  if rects.length > 1 ∧ rects.getLastD [] = [] then rects.length - 1
  else rects.length

/-- One `writer.add_annotation(page_number, AnnotationBuilder.link(rect,
target_page_index=...))` call. -/
structure Annot where
  page : Nat
  rect : TocRect
  target : Nat
  deriving DecidableEq

/-- `add_internal_links` (lines 234–253): `links_per_page` is the length
of the first rectangle page; the record feeding each annotation is
`pdf_info[links_per_page * page_number + link_number]`.  A `none` entry
models the `IndexError` Python would raise on an out-of-range lookup. -/
def add_internal_links (rects : List (List TocRect)) (info : List AsmRecord) :
    List (Option Annot) :=
  let linksPerPage := (rects.headD []).length
  rects.enum.flatMap fun pr =>
    pr.2.enum.map fun kr =>
      (info.get? (linksPerPage * pr.1 + kr.1)).map fun r =>
        ⟨pr.1, kr.2, r.startPage⟩

/-- Everything `main` (lines 256–285) produces after the crawl. -/
structure RunResult where
  crawledInfo : List PageRecord
  keptInfo : List PageRecord
  tocRects : List (List TocRect)
  tocPages : Nat
  asmInfo : List AsmRecord
  finalCounter : Nat
  mergedDoc : List PageSrc
  annotations : List (Option Annot)
  deriving DecidableEq

/-- `main` (lines 256–285): crawl from the root; drop the first `pdf_info`
entry (`pdf_info = pdf_info[1:]` — the comment in the source claims this
skips the TOC, but the TOC is never in `pdf_info`); build the TOC from the
remaining records; combine; annotate. -/
def main_run (cfg : Config) (sw : Str → Int) (fuel : Nat) : RunResult :=
  let s := crawl cfg fuel cfg.baseUrl 0 initState
  let kept := s.pdfInfo.drop 1
  let rects := create_table_of_contents sw (kept.map (·.title))
  let tocPages := tocPageCount rects
  let c := combine_pdfs tocPages kept
  let anns := add_internal_links rects c.1
  ⟨s.pdfInfo, kept, rects, tocPages, c.1, c.2.1, c.2.2, anns⟩

/-- Unfolding of `crawl` at positive fuel, in a shape convenient for
case analysis. -/
theorem crawl_succ (cfg : Config) (n : Nat) (url : Str) (depth : Nat)
    (s : CrawlState) :
    crawl cfg (n + 1) url depth s =
      if normalize_url url ∈ s.visited ∨ depth > cfg.maxDepth then s
      else
        let s1 : CrawlState := { s with visited := normalize_url url :: s.visited }
        match lookupPage cfg.env url with
        | none => s1
        | some pg =>
          let s2 : CrawlState := { s1 with rendered := normalize_url url :: s1.rendered }
          if cfg.hashFn pg.content ∈ s2.visitedHashes then s2
          else
            let s3 : CrawlState := { s2 with
              visitedHashes := cfg.hashFn pg.content :: s2.visitedHashes,
              pdfInfo := s2.pdfInfo ++
                [⟨pg.title, normalize_url url, pdfPath (normalize_url url),
                  pg.pdfPages⟩] }
            pg.links.foldl
              (fun st link =>
                if skipLink cfg.excludeTexts link.1 then st
                else if netlocOf (normalize_url (urljoin cfg.baseUrl link.2)) =
                      netlocOf cfg.baseUrl ∧
                    normalize_url (urljoin cfg.baseUrl link.2) ∉ st.visited then
                  crawl cfg n (urljoin cfg.baseUrl link.2) (depth + 1) st
                else st)
              s3 := rfl

/-- A fold preserves a predicate its step preserves. -/
theorem foldl_pres {α β : Type _} {P : β → Prop} {f : β → α → β} :
    ∀ (l : List α) (b : β), (∀ b a, a ∈ l → P b → P (f b a)) → P b →
      P (l.foldl f b)
  | [], _, _, hb => hb
  | a :: l, b, h, hb =>
    foldl_pres l (f b a) (fun b' a' ha' => h b' a' (List.mem_cons_of_mem a ha'))
      (h b a (List.mem_cons_self a l) hb)

/-- The state invariant behind claim C6: canonical URLs are never
re-listed in `visited`, render events are unique, and every rendered URL
was first marked visited. -/
def CrawlInv (s : CrawlState) : Prop :=
  s.visited.Nodup ∧ s.rendered.Nodup ∧ s.rendered ⊆ s.visited

instance : DecidablePred CrawlInv := fun s => by
  unfold CrawlInv; infer_instance

theorem crawl_inv (cfg : Config) :
    ∀ (fuel : Nat) (url : Str) (depth : Nat) (s : CrawlState),
      CrawlInv s → CrawlInv (crawl cfg fuel url depth s) := by
  intro fuel
  induction fuel with
  | zero => intro url depth s h; exact h
  | succ n ih =>
    intro url depth s h
    rw [crawl_succ]
    split
    · exact h
    · rename_i hguard
      have hnv : normalize_url url ∉ s.visited := fun hc => hguard (Or.inl hc)
      cases hpg : lookupPage cfg.env url with
      | none =>
        dsimp only
        exact ⟨h.1.cons hnv, h.2.1, fun c hc => List.mem_cons_of_mem _ (h.2.2 hc)⟩
      | some pg =>
        dsimp only
        have h2 : CrawlInv ⟨normalize_url url :: s.visited, s.visitedHashes,
            s.pdfInfo, normalize_url url :: s.rendered⟩ := by
          refine ⟨h.1.cons hnv, h.2.1.cons (fun hc => hnv (h.2.2 hc)), ?_⟩
          intro c hc
          rcases List.mem_cons.mp hc with hc | hc
          · exact hc ▸ List.mem_cons_self _ _
          · exact List.mem_cons_of_mem _ (h.2.2 hc)
        split
        · exact h2
        · refine foldl_pres pg.links _ ?_ ?_
          · intro st link _ hst
            dsimp only
            split
            · exact hst
            · split
              · exact ih _ _ _ hst
              · exact hst
          · exact h2

/-- Cyclic two-page site: the root links to `/b` and `/b` links back. -/
def cycEnv : List (Str × Page) :=
  [("http://a".data, ⟨"ca".data, "A".data, 1, [("b".data, "/b".data)]⟩),
   ("http://a/b".data, ⟨"cb".data, "B".data, 1, [("a".data, "/".data)]⟩)]

def cycCfg : Config := ⟨cycEnv, "http://a".data, 5, [], id⟩

/-- Site for claim C8: the root links `/a` then `/b`; `/a` links `/b`.
With `maxDepth = 1`, `/b` is first reached at depth 2 through `/a`. -/
def c8Env : List (Str × Page) :=
  [("http://h".data,
    ⟨"cr".data, "R".data, 1, [("a".data, "/a".data), ("b".data, "/b".data)]⟩),
   ("http://h/a".data, ⟨"ca".data, "A".data, 1, [("b".data, "/b".data)]⟩),
   ("http://h/b".data, ⟨"cb".data, "B".data, 1, []⟩)]

def c8Cfg : Config := ⟨c8Env, "http://h".data, 1, [], id⟩

/-- Site for claim C2: the root URL carries a leading `www.` label. -/
def c2Env : List (Str × Page) :=
  [("http://www.h".data, ⟨"cr".data, "R".data, 1, [("x".data, "/a".data)]⟩),
   ("http://www.h/a".data, ⟨"ca".data, "A".data, 1, []⟩)]

def c2Cfg : Config := ⟨c2Env, "http://www.h".data, 5, [], id⟩

/-- Site for claim C3: the root's only anchor has empty visible text, and
no link texts are excluded. -/
def c3Env : List (Str × Page) :=
  [("http://h".data, ⟨"cr".data, "R".data, 1, [([], "/a".data)]⟩),
   ("http://h/a".data, ⟨"ca".data, "A".data, 1, []⟩)]

def c3Cfg : Config := ⟨c3Env, "http://h".data, 5, [], id⟩

/-- Chain site for claim C7: root → `/a` → `/c`, crawled with
`maxDepth = 1`, so `/c` is reachable only at depth 2. -/
def c7Env : List (Str × Page) :=
  [("http://h".data, ⟨"cr".data, "R".data, 1, [("a".data, "/a".data)]⟩),
   ("http://h/a".data, ⟨"ca".data, "A".data, 1, [("c".data, "/c".data)]⟩),
   ("http://h/c".data, ⟨"cc".data, "C".data, 1, []⟩)]

def c7Cfg : Config := ⟨c7Env, "http://h".data, 1, [], id⟩

/-- The four-page end-to-end site of the spec: root plus three linked
pages, with `/p3` serving byte-identical content to `/p1`; `/p3` links to
a further page `/w` reachable only through it. -/
def site4 : List (Str × Page) :=
  [("http://h".data,
    ⟨"c0".data, "R".data, 2,
      [("a".data, "/p1".data), ("b".data, "/p2".data), ("c".data, "/p3".data)]⟩),
   ("http://h/p1".data, ⟨"c1".data, "P1".data, 1, []⟩),
   ("http://h/p2".data, ⟨"c2".data, "P2".data, 1, []⟩),
   ("http://h/p3".data, ⟨"c1".data, "P3".data, 1, [("w".data, "/w".data)]⟩)]

def cfg4 : Config := ⟨site4, "http://h".data, 2, [], id⟩

/-- C6 (confirmed).  Starting from any state in which `visited` has no
duplicates and the render log is a duplicate-free subset of `visited` (in
particular from the empty initial state), a crawl — over any site,
including cyclic link graphs — leaves `visited` duplicate-free and the
render log duplicate-free: no canonical URL is ever visited twice, and
the render step runs at most once per canonical URL, because the
canonical URL is inserted into `visited` before any recursion. -/
theorem c6_theorem (cfg : Config) (fuel : Nat) (url : Str) (depth : Nat)
    (s : CrawlState) (h : CrawlInv s) :
    (crawl cfg fuel url depth s).visited.Nodup ∧
      (crawl cfg fuel url depth s).rendered.Nodup := by
  have := crawl_inv cfg fuel url depth s h
  exact ⟨this.1, this.2.1⟩

/-- Witness for C6 on the concrete cyclic site `A → B → A`. -/
theorem c6_witness :
    CrawlInv initState ∧
      ((crawl cycCfg 10 cycCfg.baseUrl 0 initState).visited.Nodup ∧
        (crawl cycCfg 10 cycCfg.baseUrl 0 initState).rendered.Nodup) :=
  ⟨by decide, c6_theorem cycCfg 10 cycCfg.baseUrl 0 initState (by decide)⟩

/-- C2 counterexample.  On the concrete site whose root URL is
`http://www.h`, the root's only anchor resolves to `http://www.h/a`,
whose canonical host equals the root's canonical host, its text is
non-empty and nothing is excluded, and its canonical form is unvisited —
yet the crawl never recurses into it: only the root itself is ever
visited and recorded.  This falsifies the claim's "traversal recurses
into every same-canonical-host anchor", because the code compares the
netloc of the *normalized* anchor URL with the netloc of the *raw* root
URL (`www.h`). -/
theorem c2_counterexample :
    netlocOf (normalize_url (urljoin c2Cfg.baseUrl "/a".data)) =
        netlocOf (normalize_url c2Cfg.baseUrl) ∧
      skipLink c2Cfg.excludeTexts "x".data = false ∧
      netlocOf (normalize_url (urljoin c2Cfg.baseUrl "/a".data)) ≠
        netlocOf c2Cfg.baseUrl ∧
      (crawl c2Cfg 10 c2Cfg.baseUrl 0 initState).visited =
        [normalize_url c2Cfg.baseUrl] ∧
      (crawl c2Cfg 10 c2Cfg.baseUrl 0 initState).pdfInfo.length = 1 := by
  decide

/-- C2 as amended: the same-host check passes exactly on literal string
equality between the netloc of the parsed *normalized* anchor URL and the
netloc of the parsed *raw* root URL.  Consequently every canonical URL the
crawl ever adds to `visited`, beyond those already present and the start
URL's own canonical form, has netloc equal to the raw root URL's netloc. -/
theorem c2_amended_theorem (cfg : Config) :
    ∀ (fuel : Nat) (url : Str) (depth : Nat) (s : CrawlState) (c : Str),
      c ∈ (crawl cfg fuel url depth s).visited →
        c ∈ s.visited ∨ c = normalize_url url ∨
          netlocOf c = netlocOf cfg.baseUrl := by
  intro fuel
  induction fuel with
  | zero => intro url depth s c hc; exact Or.inl hc
  | succ n ih =>
    intro url depth s c hc
    rw [crawl_succ] at hc
    split at hc
    · exact Or.inl hc
    · rename_i hguard
      -- the state predicate preserved through the link loop
      set P : CrawlState → Prop := fun st =>
        ∀ c, c ∈ st.visited → c ∈ s.visited ∨ c = normalize_url url ∨
          netlocOf c = netlocOf cfg.baseUrl with hP
      have hbase : P ⟨normalize_url url :: s.visited, s.visitedHashes,
          s.pdfInfo, s.rendered⟩ := by
        intro c hc
        rcases List.mem_cons.mp hc with hc | hc
        · exact Or.inr (Or.inl hc)
        · exact Or.inl hc
      revert hc
      cases hpg : lookupPage cfg.env url with
      | none =>
        intro hc
        exact hbase c hc
      | some pg =>
        dsimp only
        split
        · intro hc; exact hbase c hc
        · intro hc
          refine foldl_pres (P := P) pg.links _ ?_ ?_ c hc
          · intro st link _ hst
            dsimp only
            split
            · exact hst
            · split
              · rename_i hcond
                intro c' hc'
                rcases ih _ _ _ c' hc' with h' | h' | h'
                · exact hst c' h'
                · exact Or.inr (Or.inr (h' ▸ hcond.1))
                · exact Or.inr (Or.inr h')
              · exact hst
          · exact hbase

/-- Witness for the amended C2 on a concrete run. -/
theorem c2_amended_witness :
    normalize_url cycCfg.baseUrl ∈
        (crawl cycCfg 10 cycCfg.baseUrl 0 initState).visited ∧
      (normalize_url cycCfg.baseUrl ∈ initState.visited ∨
        normalize_url cycCfg.baseUrl = normalize_url cycCfg.baseUrl ∨
        netlocOf (normalize_url cycCfg.baseUrl) = netlocOf cycCfg.baseUrl) :=
  ⟨by decide,
    c2_amended_theorem cycCfg 10 cycCfg.baseUrl 0 initState
      (normalize_url cycCfg.baseUrl) (by decide)⟩

/-- C3 counterexample.  With `excludedLinkTexts = []` the filter skips
nothing: a link with empty visible text is *not* skipped — the crawl
follows the root's empty-text anchor and records its target — because the
emptiness test sits inside `any(... for exclude_text in exclude_texts)`,
which is `False` over an empty list. -/
theorem c3_counterexample :
    skipLink ([] : List Str) ([] : Str) = false ∧
      (crawl c3Cfg 10 c3Cfg.baseUrl 0 initState).pdfInfo.map
          (fun r => r.url) =
        [normalize_url "http://h".data, normalize_url "http://h/a".data] := by
  decide

/-- C3 as amended: the link-text filter skips a link exactly when the
excluded-text list is non-empty and (the visible text is empty or some
entry occurs case-insensitively as a substring of it).  With an empty
excluded list nothing is skipped, empty-text links included. -/
theorem c3_amended_theorem (excludeTexts : List Str) (linkText : Str) :
    skipLink excludeTexts linkText = true ↔
      excludeTexts ≠ [] ∧
        (linkText = [] ∨ ∃ e ∈ excludeTexts,
          isSubstr (lowerStr e) (lowerStr linkText) = true) := by
  unfold skipLink
  rw [List.any_eq_true]
  constructor
  · rintro ⟨e, he, hcond⟩
    rcases Bool.or_eq_true_iff.mp hcond with hc | hc
    · refine ⟨fun hnil => by simp [hnil] at he, Or.inl ?_⟩
      exact List.length_eq_zero.mp (by exact_mod_cast Nat.eq_of_beq_eq_true (by simpa using hc))
    · exact ⟨fun hnil => by simp [hnil] at he, Or.inr ⟨e, he, hc⟩⟩
  · rintro ⟨hne, hc | hc⟩
    · rcases List.exists_mem_of_ne_nil excludeTexts hne with ⟨e, he⟩
      exact ⟨e, he, by simp [hc]⟩
    · rcases hc with ⟨e, he, hc⟩
      exact ⟨e, he, by simp [hc]⟩

/-- The URLs discoverable at exactly depth `d` in the link graph: depth 0
holds the root, and depth `d + 1` holds every URL obtained by resolving an
anchor of a renderable page of depth `d` (all anchors count — the crawl
only ever follows a subset of them). -/
def reachAt (cfg : Config) : Nat → List Str
  | 0 => [cfg.baseUrl]
  | d + 1 =>
    (reachAt cfg d).flatMap fun u =>
      match lookupPage cfg.env u with
      | none => []
      | some pg => pg.links.map fun link => urljoin cfg.baseUrl link.2

/-- Every record the crawl appends belongs to a URL discoverable within
`maxDepth` (invariant form, generalized over the call site). -/
theorem crawl_records_reachable (cfg : Config) :
    ∀ (fuel : Nat) (url : Str) (depth : Nat) (s : CrawlState),
      url ∈ reachAt cfg depth →
      (∀ r ∈ s.pdfInfo, ∃ d ≤ cfg.maxDepth, ∃ v ∈ reachAt cfg d,
        r.url = normalize_url v) →
      ∀ r ∈ (crawl cfg fuel url depth s).pdfInfo,
        ∃ d ≤ cfg.maxDepth, ∃ v ∈ reachAt cfg d, r.url = normalize_url v := by
  intro fuel
  induction fuel with
  | zero => intro url depth s _ hs r hr; exact hs r hr
  | succ n ih =>
    intro url depth s hreach hs r hr
    rw [crawl_succ] at hr
    split at hr
    · exact hs r hr
    · rename_i hguard
      have hdepth : depth ≤ cfg.maxDepth := by
        rcases Nat.lt_or_ge cfg.maxDepth depth with h | h
        · exact absurd (Or.inr h) hguard
        · exact h
      revert hr
      cases hpg : lookupPage cfg.env url with
      | none => intro hr; exact hs r hr
      | some pg =>
        dsimp only
        split
        · intro hr; exact hs r hr
        · intro hr
          set P : CrawlState → Prop := fun st =>
            ∀ r ∈ st.pdfInfo, ∃ d ≤ cfg.maxDepth, ∃ v ∈ reachAt cfg d,
              r.url = normalize_url v with hP
          refine foldl_pres (P := P) pg.links _ ?_ ?_ r hr
          · intro st link hlink hst
            dsimp only
            split
            · exact hst
            · split
              · refine ih _ _ _ ?_ hst
                show urljoin cfg.baseUrl link.2 ∈ reachAt cfg (depth + 1)
                rw [show reachAt cfg (depth + 1) =
                    (reachAt cfg depth).flatMap fun u =>
                      match lookupPage cfg.env u with
                      | none => []
                      | some pg => pg.links.map fun l => urljoin cfg.baseUrl l.2
                  from rfl]
                refine List.mem_flatMap.mpr ⟨url, hreach, ?_⟩
                rw [hpg]
                exact List.mem_map.mpr ⟨link, hlink, rfl⟩
              · exact hst
          · intro r' hr'
            rcases List.mem_append.mp hr' with h' | h'
            · exact hs r' h'
            · rcases List.mem_singleton.mp h' with rfl
              exact ⟨depth, hdepth, url, hreach, rfl⟩

/-- C7 (confirmed).  If no URL discoverable within `maxDepth` steps from
the root has canonical form `c` — in particular if every discovery path
to `c`'s page is longer than `maxDepth` — then the crawl started at the
root produces no `pdf_info` record (hence stores no document) for `c`. -/
theorem c7_theorem (cfg : Config) (fuel : Nat) (c : Str)
    (h : ∀ d, d ≤ cfg.maxDepth → ∀ v ∈ reachAt cfg d, normalize_url v ≠ c) :
    ∀ r ∈ (crawl cfg fuel cfg.baseUrl 0 initState).pdfInfo, r.url ≠ c := by
  intro r hr
  have := crawl_records_reachable cfg fuel cfg.baseUrl 0 initState
    (by rw [show reachAt cfg 0 = [cfg.baseUrl] from rfl]; exact List.mem_singleton.mpr rfl)
    (by intro r' hr'; cases hr') r hr
  rcases this with ⟨d, hd, v, hv, hurl⟩
  intro hc
  exact h d hd v hv (hurl ▸ hc)

/-- Witness for C7: the chain `root → /a → /c` with `maxDepth = 1`; `/c`
is discoverable only at depth 2 and indeed gets no record. -/
theorem c7_witness :
    (∀ d, d ≤ c7Cfg.maxDepth → ∀ v ∈ reachAt c7Cfg d,
      normalize_url v ≠ "http://h/c".data) ∧
      (∀ r ∈ (crawl c7Cfg 10 c7Cfg.baseUrl 0 initState).pdfInfo,
        r.url ≠ "http://h/c".data) :=
  ⟨by decide, c7_theorem c7Cfg 10 "http://h/c".data (by decide)⟩

/-- C8 counterexample.  On the site where the root links `/a` then `/b`
and `/a` links `/b`, with `maxDepth = 1`: depth-first traversal first
reaches `/b` at depth 2 through `/a` and rejects it, yet the later
discovery at depth 1 through the root's own anchor processes it and
produces a record — the record list is exactly root, `/a`, `/b`, with
`/b`'s record appended after `/a`'s whole subtree.  This falsifies "no
PageRecord is ever produced for that URL in the run": depth rejection
happens *before* the URL is inserted into `visited` (line 58 precedes
line 60), so it is not remembered. -/
theorem c8_counterexample :
    (crawl c8Cfg 10 c8Cfg.baseUrl 0 initState).pdfInfo.map (fun r => r.url) =
      [normalize_url "http://h".data, normalize_url "http://h/a".data,
        normalize_url "http://h/b".data] := by
  decide

/-- C8 as amended: the visited set is append-only for the run (every
prior content survives as a suffix), and a visit rejected by the depth
bound alone leaves the state — in particular `visited` — completely
unchanged, so the rejected URL stays eligible for later, shorter-path
processing. -/
theorem c8_amended_theorem (cfg : Config) :
    ∀ (fuel : Nat) (url : Str) (depth : Nat) (s : CrawlState),
      s.visited <:+ (crawl cfg fuel url depth s).visited ∧
        (depth > cfg.maxDepth → crawl cfg fuel url depth s = s) := by
  intro fuel
  induction fuel with
  | zero => intro url depth s; exact ⟨List.suffix_refl _, fun _ => rfl⟩
  | succ n ih =>
    intro url depth s
    constructor
    · rw [crawl_succ]
      split
      · exact List.suffix_refl _
      · set P : CrawlState → Prop := fun st => s.visited <:+ st.visited with hP
        have hbase : s.visited <:+ normalize_url url :: s.visited :=
          List.suffix_cons _ _
        cases hpg : lookupPage cfg.env url with
        | none => exact hbase
        | some pg =>
          dsimp only
          split
          · exact hbase
          · refine foldl_pres (P := P) pg.links _ ?_ ?_
            · intro st link _ hst
              dsimp only
              split
              · exact hst
              · split
                · exact hst.trans (ih _ _ _).1
                · exact hst
            · exact hbase
    · intro hdepth
      rw [crawl_succ]
      rw [if_pos (Or.inr hdepth)]

/-- Witness for the amended C8 at a concrete depth-rejected visit. -/
theorem c8_amended_witness :
    (initState.visited <:+
        (crawl c8Cfg 10 "http://h/b".data 2 initState).visited) ∧
      (2 > c8Cfg.maxDepth ∧
        crawl c8Cfg 10 "http://h/b".data 2 initState = initState) :=
  ⟨(c8_amended_theorem c8Cfg 10 "http://h/b".data 2 initState).1,
    by decide, (c8_amended_theorem c8Cfg 10 "http://h/b".data 2 initState).2
      (by decide)⟩

/-- C10 (confirmed).  A visit of an unvisited, depth-admissible URL whose
rendered HTML fingerprints to a hash already in `visited_hashes`
terminates immediately after the duplicate test: the resulting state
gains exactly the canonical URL in `visited` (which therefore remains
recorded there) and the render-log entry — no document is stored, no
`pdf_info` record is appended, `visited_hashes` is unchanged, and no link
of the page is extracted or recursed into, so nothing reachable only
through this page is visited in this call. -/
theorem c10_theorem (cfg : Config) (fuel : Nat) (url : Str) (depth : Nat)
    (s : CrawlState) (pg : Page)
    (hnv : normalize_url url ∉ s.visited)
    (hdepth : depth ≤ cfg.maxDepth)
    (hpg : lookupPage cfg.env url = some pg)
    (hdup : cfg.hashFn pg.content ∈ s.visitedHashes) :
    crawl cfg (fuel + 1) url depth s =
      { s with visited := normalize_url url :: s.visited,
               rendered := normalize_url url :: s.rendered } := by
  rw [crawl_succ]
  rw [if_neg (by
    rintro (h | h)
    · exact hnv h
    · exact absurd hdepth (Nat.not_le_of_gt h))]
  rw [hpg]
  dsimp only
  rw [if_pos hdup]

/-- Witness for C10: visiting `/p3` of the four-page site in a state that
has already fingerprinted `/p1`'s identical content. -/
theorem c10_witness :
    (normalize_url "http://h/p3".data ∉
        (⟨[], ["c1".data], [], []⟩ : CrawlState).visited ∧
      0 ≤ cfg4.maxDepth ∧
      lookupPage cfg4.env "http://h/p3".data =
        some ⟨"c1".data, "P3".data, 1, [("w".data, "/w".data)]⟩ ∧
      cfg4.hashFn "c1".data ∈
        (⟨[], ["c1".data], [], []⟩ : CrawlState).visitedHashes) ∧
      crawl cfg4 10 "http://h/p3".data 0 ⟨[], ["c1".data], [], []⟩ =
        ⟨[normalize_url "http://h/p3".data], ["c1".data], [],
          [normalize_url "http://h/p3".data]⟩ :=
  ⟨⟨by decide, by decide, by decide, by decide⟩,
    c10_theorem cfg4 9 "http://h/p3".data 0 ⟨[], ["c1".data], [], []⟩
      ⟨"c1".data, "P3".data, 1, [("w".data, "/w".data)]⟩
      (by decide) (by decide) (by decide) (by decide)⟩

/-- The record list `combine_pdfs` produces, computed directly: each
record gets `numPages = docPages` and `startPage` = the running total so
far. -/
def asmSpec (total : Nat) : List PageRecord → List AsmRecord
  | [] => []
  | r :: rs =>
    ⟨r.title, r.url, r.filePath, r.docPages, r.docPages, total⟩ ::
      asmSpec (total + r.docPages) rs

theorem combineGo_records :
    ∀ (rs : List PageRecord) (total : Nat) (writer : List PageSrc),
      (combineGo total writer rs).1 = asmSpec total rs := by
  intro rs
  induction rs with
  | nil => intro total writer; rfl
  | cons r rs ih =>
    intro total writer
    simp only [combineGo, asmSpec, ih]

theorem combineGo_counter :
    ∀ (rs : List PageRecord) (total : Nat) (writer : List PageSrc),
      (combineGo total writer rs).2.1 = total + (rs.map (·.docPages)).sum := by
  intro rs
  induction rs with
  | nil => intro total writer; simp [combineGo]
  | cons r rs ih =>
    intro total writer
    simp only [combineGo, ih, List.map_cons, List.sum_cons]
    omega

theorem combineGo_writer :
    ∀ (rs : List PageRecord) (total : Nat) (writer : List PageSrc),
      (combineGo total writer rs).2.2.length =
        writer.length + (rs.map (·.docPages)).sum := by
  intro rs
  induction rs with
  | nil => intro total writer; simp [combineGo]
  | cons r rs ih =>
    intro total writer
    simp only [combineGo, ih, List.map_cons, List.sum_cons, List.length_append,
      List.length_map, List.length_range]
    omega

theorem asmSpec_length (rs : List PageRecord) :
    ∀ (total : Nat), (asmSpec total rs).length = rs.length := by
  induction rs with
  | nil => intro total; rfl
  | cons r rs ih => intro total; simp [asmSpec, ih]

theorem asmSpec_chain (rs : List PageRecord) :
    ∀ (total i : Nat) (a b : AsmRecord),
      (asmSpec total rs).get? i = some a →
      (asmSpec total rs).get? (i + 1) = some b →
      b.startPage = a.startPage + a.numPages := by
  induction rs with
  | nil => intro total i a b ha _; simp [asmSpec] at ha
  | cons r rs ih =>
    intro total i a b ha hb
    cases i with
    | zero =>
      simp only [asmSpec, List.get?_cons_zero, Option.some_inj] at ha
      cases rs with
      | nil => simp [asmSpec] at hb
      | cons r' rs' =>
        simp only [asmSpec, List.get?_cons_succ, List.get?_cons_zero,
          Option.some_inj] at hb
        rw [← ha, ← hb]
    | succ j =>
      simp only [asmSpec, List.get?_cons_succ] at ha hb
      exact ih (total + r.docPages) j a b ha hb

theorem asmSpec_mem (rs : List PageRecord) :
    ∀ (total : Nat) (a : AsmRecord), a ∈ asmSpec total rs →
      ∃ r ∈ rs, a.numPages = r.docPages := by
  induction rs with
  | nil => intro total a ha; simp [asmSpec] at ha
  | cons r rs ih =>
    intro total a ha
    rcases List.mem_cons.mp ha with ha | ha
    · exact ⟨r, List.mem_cons_self _ _, by rw [ha]⟩
    · rcases ih (total + r.docPages) a ha with ⟨r', hr', he⟩
      exact ⟨r', List.mem_cons_of_mem _ hr', he⟩

/-- C4 (confirmed).  For every TOC page count and every list of page
records, after `combine_pdfs`: the first record's `start_page` equals the
TOC page count; each record's `start_page` is the previous one's
`start_page` plus its `num_pages` (contiguous, no gaps — and strictly
increasing whenever every stored document has at least one page); and the
final running counter equals the merged document's total page count. -/
theorem c4_theorem (tocPages : Nat) (records : List PageRecord) :
    (∀ a, (combine_pdfs tocPages records).1.head? = some a →
      a.startPage = tocPages) ∧
    (∀ i a b, (combine_pdfs tocPages records).1.get? i = some a →
      (combine_pdfs tocPages records).1.get? (i + 1) = some b →
      b.startPage = a.startPage + a.numPages) ∧
    ((∀ r ∈ records, 0 < r.docPages) →
      ∀ i a b, (combine_pdfs tocPages records).1.get? i = some a →
        (combine_pdfs tocPages records).1.get? (i + 1) = some b →
        a.startPage < b.startPage) ∧
    (combine_pdfs tocPages records).2.1 =
      (combine_pdfs tocPages records).2.2.length := by
  unfold combine_pdfs
  rw [combineGo_counter, combineGo_writer]
  rw [combineGo_records]
  refine ⟨?_, ?_, ?_, by simp⟩
  · intro a ha
    cases records with
    | nil => simp [asmSpec] at ha
    | cons r rs =>
      simp only [asmSpec, List.head?_cons, Option.some_inj] at ha
      rw [← ha]
  · intro i a b ha hb
    exact asmSpec_chain records tocPages i a b ha hb
  · intro hpos i a b ha hb
    rw [asmSpec_chain records tocPages i a b ha hb]
    rcases asmSpec_mem records tocPages a (List.get?_mem ha) with ⟨r, hr, he⟩
    have := hpos r hr
    omega

/-- Witness for C4 on concrete data (a 2-page TOC and two records of 3
and 4 pages). -/
theorem c4_witness :
    (∀ a, (combine_pdfs 2 [⟨"t".data, "u".data, "f".data, 3⟩,
        ⟨"s".data, "v".data, "g".data, 4⟩]).1.head? = some a →
      a.startPage = 2) ∧
      (combine_pdfs 2 [⟨"t".data, "u".data, "f".data, 3⟩,
          ⟨"s".data, "v".data, "g".data, 4⟩]).2.1 =
        (combine_pdfs 2 [⟨"t".data, "u".data, "f".data, 3⟩,
          ⟨"s".data, "v".data, "g".data, 4⟩]).2.2.length :=
  ⟨(c4_theorem 2 _).1, (c4_theorem 2 _).2.2.2⟩

/-- A constant string-width metric used to run the pipeline on concrete
data (the claims never depend on text widths). -/
def swConst : Str → Int := fun _ => 10000

/-- The full pipeline on the four-page end-to-end site. -/
def run4 : RunResult := main_run cfg4 swConst 12

/-- C1 (code bug).  On the spec's four-page site (root plus three linked
pages, `/p3` a byte-identical duplicate of `/p1`, `maxDepth = 2`, no
exclusions) traversal produces exactly 3 records — root, `/p1`, `/p2` —
but `main` then drops the *first* record (`pdf_info = pdf_info[1:]`,
whose comment claims it skips "the TOC itself" even though the TOC is
never an element of `pdf_info`), so the merged output is the TOC page
followed by only the `/p1` and `/p2` documents: the root page's stored
document is omitted, and the merged page count is 3, not the claimed
TOC pages + sum of all 3 records' page counts = 5. -/
theorem c1_theorem :
    run4.crawledInfo.map (fun r => r.url) =
        [normalize_url "http://h".data, normalize_url "http://h/p1".data,
          normalize_url "http://h/p2".data] ∧
      run4.mergedDoc =
        [PageSrc.toc 0,
          PageSrc.doc (pdfPath (normalize_url "http://h/p1".data)) 0,
          PageSrc.doc (pdfPath (normalize_url "http://h/p2".data)) 0] ∧
      run4.mergedDoc.length = 3 ∧
      run4.tocPages + ((run4.crawledInfo.map (fun r => r.docPages)).sum) = 5 ∧
      run4.mergedDoc.length ≠
        run4.tocPages + ((run4.crawledInfo.map (fun r => r.docPages)).sum) := by
  decide

/-- The rectangle `create_table_of_contents` draws for a title sitting in
slot `k` (0-based) of a TOC page: the slot fully determines the vertical
position, since every page starts at `tocStartY` and steps down 20 points
per line. -/
def tocRectAt (sw : Str → Int) (k : Nat) (t : Str) : TocRect :=
  ⟨5000, (tocStartY - 2000 * k) - 200, 5000 + sw (truncTitle t),
    (tocStartY - 2000 * k) + 1000⟩

/-- The rectangles of consecutive titles starting at slot `c` of one
page (no page break). -/
def rectsFrom (sw : Str → Int) (c : Nat) : List Str → List TocRect
  | [] => []
  | t :: ts => tocRectAt sw c t :: rectsFrom sw (c + 1) ts

/-- Slot-counting reformulation of the TOC layout loop: slot `c` on the
current page, page break exactly after slot 31 (the 32nd line). -/
def tocRun (sw : Str → Int) : List Str → Nat → List TocRect →
    List (List TocRect)
  | [], _, cur => [cur]
  | t :: ts, c, cur =>
    let rect := tocRectAt sw c t
    if c = 31 then (cur ++ [rect]) :: tocRun sw ts 0 []
    else tocRun sw ts (c + 1) (cur ++ [rect])

theorem tocGo_eq_tocRun (sw : Str → Int) :
    ∀ (ts : List Str) (c : Nat) (cur : List TocRect)
      (fin : List (List TocRect)), c ≤ 31 →
      tocGo sw ts (tocStartY - 2000 * c) cur fin = fin ++ tocRun sw ts c cur := by
  intro ts
  induction ts with
  | nil => intro c cur fin _; simp [tocGo, tocRun]
  | cons t ts ih =>
    intro c cur fin hc
    show tocGo sw (t :: ts) (tocStartY - 2000 * c) cur fin = _
    rw [tocGo]
    have hy : tocStartY - 2000 * (c : Int) - 200 =
        (tocStartY - 2000 * c) - 200 := by ring
    have hcond : ((tocStartY - 2000 * (c : Int)) - 2000 < 5000) ↔ c = 31 := by
      unfold tocStartY tocPageHeight
      constructor
      · intro h
        omega
      · intro h
        subst h
        norm_num
    have ih0 : ∀ (fin' : List (List TocRect)),
        tocGo sw ts tocStartY [] fin' = fin' ++ tocRun sw ts 0 [] := by
      intro fin'
      have := ih 0 [] fin' (by omega)
      simpa using this
    by_cases h31 : c = 31
    · rw [if_pos (hcond.mpr h31)]
      subst h31
      rw [ih0]
      rw [tocRun]
      simp [tocRectAt]
    · rw [if_neg (fun hc' => h31 (hcond.mp hc'))]
      have hcast : tocStartY - 2000 * (c : Int) - 2000 =
          tocStartY - 2000 * ((c + 1 : Nat) : Int) := by push_cast; ring
      rw [hcast, ih (c + 1) _ fin (by omega)]
      rw [tocRun]
      rw [if_neg h31]
      simp [tocRectAt]

/-- `create_table_of_contents` in slot-counting form. -/
theorem create_toc_eq (sw : Str → Int) (titles : List Str) :
    create_table_of_contents sw titles = tocRun sw titles 0 [] := by
  unfold create_table_of_contents
  rw [show tocStartY = tocStartY - 2000 * ((0 : Nat) : Int) by simp]
  exact tocGo_eq_tocRun sw titles 0 [] [] (by omega)

theorem tocRun_small (sw : Str → Int) :
    ∀ (ts : List Str) (c : Nat) (cur : List TocRect),
      c + ts.length ≤ 31 →
      tocRun sw ts c cur = [cur ++ rectsFrom sw c ts] := by
  intro ts
  induction ts with
  | nil => intro c cur _; simp [tocRun, rectsFrom]
  | cons t ts ih =>
    intro c cur h
    rw [tocRun]
    rw [if_neg (by simp at h; omega)]
    rw [ih (c + 1) _ (by simp at h ⊢; omega)]
    simp [rectsFrom]

theorem tocRun_step (sw : Str → Int) :
    ∀ (ts : List Str) (c : Nat) (cur : List TocRect),
      c ≤ 31 → 32 - c ≤ ts.length →
      tocRun sw ts c cur =
        (cur ++ rectsFrom sw c (ts.take (32 - c))) ::
          tocRun sw (ts.drop (32 - c)) 0 [] := by
  intro ts
  induction ts with
  | nil => intro c cur hc hlen; simp at hlen; omega
  | cons t ts ih =>
    intro c cur hc hlen
    rw [tocRun]
    by_cases h31 : c = 31
    · subst h31
      rw [if_pos rfl]
      have h1 : (32 : Nat) - 31 = 1 := by omega
      rw [h1]
      simp [rectsFrom]
    · rw [if_neg h31]
      rw [ih (c + 1) _ (by omega) (by simp at hlen ⊢; omega)]
      have htake : (t :: ts).take (32 - c) = t :: ts.take (31 - c) := by
        rw [show (32 : Nat) - c = (31 - c) + 1 by omega]
        rfl
      have hdrop : (t :: ts).drop (32 - c) = ts.drop (31 - c) := by
        rw [show (32 : Nat) - c = (31 - c) + 1 by omega]
        rfl
      rw [htake, hdrop]
      rw [show (32 : Nat) - (c + 1) = 31 - c by omega]
      simp [rectsFrom]

/-- `add_internal_links` page loop, with the page index made explicit. -/
def ailsGo (lpp : Nat) (info : List AsmRecord) :
    Nat → List (List TocRect) → List (Option Annot)
  | _, [] => []
  | p, page :: rest =>
    (page.enum.map fun kr =>
      (info.get? (lpp * p + kr.1)).map fun r => ⟨p, kr.2, r.startPage⟩) ++
      ailsGo lpp info (p + 1) rest

/-- The inner annotation loop of one page, with the absolute record index
made explicit. -/
def ailsPage (info : List AsmRecord) (p : Nat) :
    Nat → List TocRect → List (Option Annot)
  | _, [] => []
  | idx, r :: rs =>
    ((info.get? idx).map fun a => ⟨p, r, a.startPage⟩) ::
      ailsPage info p (idx + 1) rs

/-- The annotation list the spec predicts: one entry per record in order,
with the page index advancing every 32 records and the slot rolling over
after 31. -/
def annSpecGo (sw : Str → Int) (p k : Nat) : List AsmRecord → List (Option Annot)
  | [] => []
  | r :: rs =>
    some ⟨p, tocRectAt sw k r.title, r.startPage⟩ ::
      (if k = 31 then annSpecGo sw (p + 1) 0 rs else annSpecGo sw p (k + 1) rs)

/-- The drawn rectangles, flattened: one per record in order, the slot
rolling over after 31. -/
def rectSeq (sw : Str → Int) (k : Nat) : List Str → List TocRect
  | [] => []
  | t :: ts =>
    tocRectAt sw k t ::
      (if k = 31 then rectSeq sw 0 ts else rectSeq sw (k + 1) ts)

theorem enumFrom_map_ails (info : List AsmRecord) (p : Nat) :
    ∀ (page : List TocRect) (n B : Nat),
      (List.enumFrom n page).map (fun kr =>
        (info.get? (B + kr.1)).map fun r =>
          (⟨p, kr.2, r.startPage⟩ : Annot)) =
        ailsPage info p (B + n) page := by
  intro page
  induction page with
  | nil => intro n B; rfl
  | cons r rs ih =>
    intro n B
    rw [List.enumFrom_cons, List.map_cons, ailsPage]
    congr 1
    rw [ih (n + 1) B]
    rw [Nat.add_assoc]

theorem add_internal_links_eq (rects : List (List TocRect))
    (info : List AsmRecord) :
    add_internal_links rects info =
      ailsGo ((rects.headD []).length) info 0 rects := by
  unfold add_internal_links
  dsimp only
  generalize (rects.headD []).length = lpp
  rw [List.enum]
  suffices h : ∀ (rs : List (List TocRect)) (p : Nat),
      (List.enumFrom p rs).flatMap (fun pr =>
        pr.2.enum.map fun kr =>
          (info.get? (lpp * pr.1 + kr.1)).map fun r =>
            (⟨pr.1, kr.2, r.startPage⟩ : Annot)) =
        ailsGo lpp info p rs from h rects 0
  intro rs
  induction rs with
  | nil => intro p; rfl
  | cons page rest ih =>
    intro p
    rw [List.enumFrom_cons, List.flatMap_cons, ailsGo, ih (p + 1)]

theorem rectsFrom_length (sw : Str → Int) :
    ∀ (ts : List Str) (c : Nat), (rectsFrom sw c ts).length = ts.length := by
  intro ts
  induction ts with
  | nil => intro c; rfl
  | cons t ts ih => intro c; simp [rectsFrom, ih]

theorem ailsPage_rectsFrom (sw : Str → Int) (I : List AsmRecord) (p : Nat) :
    ∀ (J : List AsmRecord) (c idx : Nat),
      (∀ k, k < J.length → I.get? (idx + k) = J.get? k) →
      J.length + c ≤ 32 → c ≤ 31 →
      ailsPage I p idx (rectsFrom sw c (J.map (fun r => r.title))) =
        annSpecGo sw p c J := by
  intro J
  induction J with
  | nil => intro c idx _ _ _; rfl
  | cons r rs ih =>
    intro c idx hidx hlen hc
    rw [List.map_cons, rectsFrom, ailsPage, annSpecGo]
    have h0 : I.get? idx = some r := by
      have := hidx 0 (Nat.zero_lt_succ _)
      simpa using this
    rw [h0]
    simp only [Option.map_some']
    congr 1
    by_cases h31 : c = 31
    · have hrs : rs = [] := by
        cases rs with
        | nil => rfl
        | cons a l =>
          exfalso
          simp only [List.length_cons] at hlen
          omega
      subst hrs h31
      rfl
    · rw [if_neg h31]
      refine ih (c + 1) (idx + 1) ?_ ?_ (by omega)
      · intro k hk
        have := hidx (k + 1) (by simp only [List.length_cons]; omega)
        rw [show idx + (k + 1) = idx + 1 + k by omega] at this
        simpa using this
      · simp only [List.length_cons] at hlen
        omega

theorem annSpecGo_split (sw : Str → Int) :
    ∀ (J : List AsmRecord) (p c : Nat), c ≤ 31 → 32 - c ≤ J.length →
      annSpecGo sw p c J =
        annSpecGo sw p c (J.take (32 - c)) ++
          annSpecGo sw (p + 1) 0 (J.drop (32 - c)) := by
  intro J
  induction J with
  | nil => intro p c hc hlen; simp at hlen; omega
  | cons r rs ih =>
    intro p c hc hlen
    by_cases h31 : c = 31
    · subst h31
      rw [show (32 : Nat) - 31 = 1 by omega]
      simp [annSpecGo]
    · rw [show (32 : Nat) - c = (31 - c) + 1 by omega]
      rw [List.take_succ_cons, List.drop_succ_cons]
      rw [annSpecGo, annSpecGo]
      rw [if_neg h31, if_neg h31]
      rw [List.cons_append]
      congr 1
      have hlen' : 32 - (c + 1) ≤ rs.length := by
        simp only [List.length_cons] at hlen
        omega
      have := ih p (c + 1) (by omega) hlen'
      rw [show (32 : Nat) - (c + 1) = 31 - c by omega] at this
      exact this

theorem tocRun_join (sw : Str → Int) :
    ∀ (ts : List Str) (c : Nat) (cur : List TocRect),
      (tocRun sw ts c cur).flatten = cur ++ rectSeq sw c ts := by
  intro ts
  induction ts with
  | nil => intro c cur; simp [tocRun, rectSeq]
  | cons t ts ih =>
    intro c cur
    rw [tocRun, rectSeq]
    by_cases h31 : c = 31
    · rw [if_pos h31, if_pos h31]
      rw [List.flatten_cons, ih 0 []]
      simp
    · rw [if_neg h31, if_neg h31]
      rw [ih (c + 1) (cur ++ [tocRectAt sw c t])]
      simp

theorem annSpecGo_length (sw : Str → Int) :
    ∀ (J : List AsmRecord) (p k : Nat),
      (annSpecGo sw p k J).length = J.length := by
  intro J
  induction J with
  | nil => intro p k; rfl
  | cons r rs ih =>
    intro p k
    rw [annSpecGo]
    by_cases h31 : k = 31
    · rw [if_pos h31]; simp [ih]
    · rw [if_neg h31]; simp [ih]

theorem ails_master (sw : Str → Int) (I : List AsmRecord) :
    ∀ (n : Nat) (J : List AsmRecord) (p : Nat), J.length ≤ n →
      (∀ k, k < J.length → I.get? (32 * p + k) = J.get? k) →
      ailsGo 32 I p (tocRun sw (J.map (fun r => r.title)) 0 []) =
        annSpecGo sw p 0 J := by
  intro n
  induction n with
  | zero =>
    intro J p hn _
    have hJ : J = [] := List.length_eq_zero.mp (Nat.le_zero.mp hn)
    subst hJ
    rfl
  | succ n ih =>
    intro J p hn hidx
    by_cases hsmall : J.length ≤ 31
    · rw [tocRun_small sw _ 0 [] (by simpa using hsmall)]
      rw [ailsGo, ailsGo]
      rw [List.append_nil]
      rw [List.enum]
      have he := enumFrom_map_ails I p (rectsFrom sw 0 (J.map fun r => r.title)) 0 (32 * p)
      rw [Nat.add_zero] at he
      rw [List.nil_append, he]
      exact ailsPage_rectsFrom sw I p J 0 (32 * p)
        (fun k hk => hidx k hk) (by omega) (by omega)
    · push_neg at hsmall
      have hlen32 : 32 ≤ J.length := hsmall
      rw [tocRun_step sw _ 0 [] (by omega) (by simpa using hlen32)]
      rw [List.nil_append]
      rw [show (32 : Nat) - 0 = 32 by omega]
      rw [ailsGo]
      rw [← List.map_take, ← List.map_drop]
      have hfront :
          (rectsFrom sw 0 ((J.take 32).map fun r => r.title)).enum.map
              (fun kr => (I.get? (32 * p + kr.1)).map fun r =>
                (⟨p, kr.2, r.startPage⟩ : Annot)) =
            annSpecGo sw p 0 (J.take 32) := by
        rw [List.enum]
        have he := enumFrom_map_ails I p
          (rectsFrom sw 0 ((J.take 32).map fun r => r.title)) 0 (32 * p)
        rw [Nat.add_zero] at he
        rw [he]
        refine ailsPage_rectsFrom sw I p (J.take 32) 0 (32 * p) ?_ ?_ (by omega)
        · intro k hk
          have hmin : (J.take 32).length = 32 := by
            rw [List.length_take]
            omega
          have hk32 : k < 32 := by omega
          rw [List.get?_take hk32]
          exact hidx k (by omega)
        · have hmin : (J.take 32).length = 32 := by
            rw [List.length_take]
            omega
          omega
      rw [hfront]
      have hback := ih (J.drop 32) (p + 1)
        (by rw [List.length_drop]; omega)
        (by
          intro k hk
          rw [List.get?_drop]
          rw [show 32 * (p + 1) + k = 32 * p + (32 + k) by ring]
          refine hidx (32 + k) ?_
          rw [List.length_drop] at hk
          omega)
      rw [hback]
      rw [← annSpecGo_split sw J p 0 (by omega) (by omega)]

/-- C5 (confirmed).  For every string-width metric and every assembled
record list: (a) the TOC builder draws exactly one rectangle per record,
in record order, the slot — hence the exact geometry — rolling over every
32 lines (`rectSeq`); and (b) the annotator emits exactly one jump-link
annotation per rectangle, in the same order, each placed on the TOC page
the rectangle was drawn on (the page index advances every 32 records),
with the drawn rectangle as its clickable area and the `start_page` of
the record at the rectangle's order-correspondence index as its target —
for every record count, including counts that span several TOC pages and
exact multiples of the 32-line page capacity (`annSpecGo`).  No lookup is
out of range (every annotation is `some`). -/
theorem c5_theorem (sw : Str → Int) (info : List AsmRecord) :
    (create_table_of_contents sw (info.map fun r => r.title)).flatten =
        rectSeq sw 0 (info.map fun r => r.title) ∧
      (add_internal_links
          (create_table_of_contents sw (info.map fun r => r.title))
          info).length = info.length ∧
      add_internal_links
          (create_table_of_contents sw (info.map fun r => r.title)) info =
        annSpecGo sw 0 0 info := by
  have hmain : add_internal_links
      (create_table_of_contents sw (info.map fun r => r.title)) info =
      annSpecGo sw 0 0 info := by
    rw [add_internal_links_eq, create_toc_eq]
    by_cases hsmall : info.length ≤ 31
    · rw [tocRun_small sw _ 0 [] (by simpa using hsmall)]
      rw [List.nil_append]
      rw [ailsGo, ailsGo, List.append_nil]
      rw [List.enum]
      rw [enumFrom_map_ails]
      refine ailsPage_rectsFrom sw info 0 info 0 _ ?_ (by omega) (by omega)
      intro k hk
      simp
    · push_neg at hsmall
      have hstep := tocRun_step sw (info.map fun r => r.title) 0 []
        (by omega) (by simp; omega)
      rw [List.nil_append] at hstep
      rw [hstep]
      have hhead : ((((rectsFrom sw 0
            (List.take (32 - 0) (info.map fun r => r.title))) ::
          tocRun sw (List.drop (32 - 0) (info.map fun r => r.title)) 0
            []).headD []).length) = 32 := by
        rw [List.headD_cons, rectsFrom_length, List.length_take,
          List.length_map]
        omega
      rw [hhead, ← hstep]
      refine ails_master sw info info.length info 0 (Nat.le_refl _) ?_
      intro k hk
      simp
  refine ⟨?_, ?_, hmain⟩
  · rw [create_toc_eq]
    rw [tocRun_join]
    rw [List.nil_append]
  · rw [hmain, annSpecGo_length]

theorem char_eq_of_toNat_eq {c d : Char} (h : c.toNat = d.toNat) : c = d :=
  Char.ext (UInt32.ext h)

theorem toNat_ofNat_small (m : Nat) (h1 : 97 ≤ m) (h2 : m ≤ 122) :
    (Char.ofNat m).toNat = m := by
  interval_cases m <;> decide

theorem toLower_of_upper (c : Char) (h : 65 ≤ c.toNat ∧ c.toNat ≤ 90) :
    (Char.toLower c).toNat = c.toNat + 32 := by
  unfold Char.toLower
  rw [if_pos ⟨h.1, h.2⟩]
  exact toNat_ofNat_small _ (by omega) (by omega)

theorem toLower_of_not_upper (c : Char) (h : ¬(65 ≤ c.toNat ∧ c.toNat ≤ 90)) :
    Char.toLower c = c := by
  unfold Char.toLower
  rw [if_neg (fun hc => h ⟨hc.1, hc.2⟩)]

/-- `toLower` reflects characters outside `[a-z]`: if the result is such a
character, the input already was that character. -/
theorem toLower_eq_symbol {c d : Char}
    (hd : d.toNat < 65 ∨ (90 < d.toNat ∧ d.toNat < 97) ∨ 122 < d.toNat) :
    Char.toLower c = d ↔ c = d := by
  constructor
  · intro h
    by_cases hu : 65 ≤ c.toNat ∧ c.toNat ≤ 90
    · exfalso
      have := toLower_of_upper c hu
      rw [h] at this
      omega
    · rw [toLower_of_not_upper c hu] at h
      exact h
  · intro h
    subst h
    apply toLower_of_not_upper
    omega

theorem isLower_iff (c : Char) :
    Char.isLower c = true ↔ 97 ≤ c.toNat ∧ c.toNat ≤ 122 := by
  simp only [Char.isLower, ge_iff_le, Bool.and_eq_true, decide_eq_true_eq]
  rw [UInt32.le_def, UInt32.le_def]
  constructor
  · intro h; exact ⟨h.1, h.2⟩
  · intro h; exact ⟨h.1, h.2⟩

theorem isDigit_iff (c : Char) :
    Char.isDigit c = true ↔ 48 ≤ c.toNat ∧ c.toNat ≤ 57 := by
  simp only [Char.isDigit, ge_iff_le, Bool.and_eq_true, decide_eq_true_eq]
  rw [UInt32.le_def, UInt32.le_def]
  constructor
  · intro h; exact ⟨h.1, h.2⟩
  · intro h; exact ⟨h.1, h.2⟩

theorem isUpper_iff (c : Char) :
    Char.isUpper c = true ↔ 65 ≤ c.toNat ∧ c.toNat ≤ 90 := by
  simp only [Char.isUpper, ge_iff_le, Bool.and_eq_true, decide_eq_true_eq]
  rw [UInt32.le_def, UInt32.le_def]
  constructor
  · intro h; exact ⟨h.1, h.2⟩
  · intro h; exact ⟨h.1, h.2⟩

/-- Characters through which the idempotence argument tracks query
strings: lowercase ASCII letters, digits, and `_ . - ~`.  They are
unreserved for `quote`, unaffected by `lower()`, and distinct from every
URL delimiter. -/
def tameChar (c : Char) : Bool :=
  (decide (97 ≤ c.toNat) && decide (c.toNat ≤ 122)) ||
    (decide (48 ≤ c.toNat) && decide (c.toNat ≤ 57)) ||
    c = '_' || c = '.' || c = '-' || c = '~'

theorem tameChar_cases {c : Char} (h : tameChar c = true) :
    (97 ≤ c.toNat ∧ c.toNat ≤ 122) ∨ (48 ≤ c.toNat ∧ c.toNat ≤ 57) ∨
      c = '_' ∨ c = '.' ∨ c = '-' ∨ c = '~' := by
  simp only [tameChar, Bool.or_eq_true, Bool.and_eq_true, decide_eq_true_eq] at h
  tauto

theorem tameChar_toLower {c : Char} (h : tameChar c = true) :
    Char.toLower c = c := by
  apply toLower_of_not_upper
  rcases tameChar_cases h with h' | h' | h' | h' | h' | h' <;>
    first
      | omega
      | (subst h'; decide)

theorem tameChar_alwaysSafe {c : Char} (h : tameChar c = true) :
    isAlwaysSafe c = true := by
  rcases tameChar_cases h with h' | h' | h' | h' | h' | h'
  · have hl : Char.isLower c = true := (isLower_iff c).mpr h'
    simp [isAlwaysSafe, Char.isAlphanum, Char.isAlpha, hl]
  · have hd : Char.isDigit c = true := (isDigit_iff c).mpr h'
    simp [isAlwaysSafe, Char.isAlphanum, Char.isAlpha, hd]
  all_goals (subst h'; decide)

theorem tameChar_ne {c : Char} (h : tameChar c = true) :
    c ≠ ' ' ∧ c ≠ '%' ∧ c ≠ '+' ∧ c ≠ '&' ∧ c ≠ '=' ∧ c ≠ '#' := by
  rcases tameChar_cases h with h' | h' | h' | h' | h' | h'
  · refine ⟨?_, ?_, ?_, ?_, ?_, ?_⟩ <;>
      (intro he; subst he; exact absurd h' (by decide))
  · refine ⟨?_, ?_, ?_, ?_, ?_, ?_⟩ <;>
      (intro he; subst he; exact absurd h' (by decide))
  all_goals (subst h'; decide)

theorem toLower_idem (c : Char) :
    Char.toLower (Char.toLower c) = Char.toLower c := by
  by_cases hu : 65 ≤ c.toNat ∧ c.toNat ≤ 90
  · apply toLower_of_not_upper
    have := toLower_of_upper c hu
    omega
  · rw [toLower_of_not_upper c hu, toLower_of_not_upper c hu]

theorem lowerStr_idem (s : Str) : lowerStr (lowerStr s) = lowerStr s := by
  unfold lowerStr
  rw [List.map_map]
  exact List.map_congr_left fun c _ => toLower_idem c

theorem lowerStr_eq_nil_iff (s : Str) : lowerStr s = [] ↔ s = [] := by
  unfold lowerStr
  exact List.map_eq_nil

/-- Membership of a non-letter symbol is invariant under lowering. -/
theorem mem_lowerStr_symbol {d : Char}
    (hd : d.toNat < 65 ∨ (90 < d.toNat ∧ d.toNat < 97) ∨ 122 < d.toNat)
    (s : Str) : d ∈ lowerStr s ↔ d ∈ s := by
  unfold lowerStr
  rw [List.mem_map]
  constructor
  · rintro ⟨c, hc, he⟩
    rwa [← (toLower_eq_symbol hd).mp he]
  · intro h
    exact ⟨d, h, (toLower_eq_symbol hd).mpr rfl⟩

theorem dropWhile_congr_here {α : Type _} (p q : α → Bool) :
    ∀ (l : List α), (∀ c ∈ l, p c = q c) → l.dropWhile p = l.dropWhile q := by
  intro l
  induction l with
  | nil => intro _; rfl
  | cons c r ih =>
    intro h
    rw [List.dropWhile_cons, List.dropWhile_cons, h c (List.mem_cons_self _ _)]
    split
    · exact ih fun c' hc' => h c' (List.mem_cons_of_mem _ hc')
    · rfl

theorem rstripSlash_lower_comm (s : Str) :
    rstripSlash (lowerStr s) = lowerStr (rstripSlash s) := by
  unfold rstripSlash lowerStr
  rw [← List.map_reverse, List.dropWhile_map, ← List.map_reverse]
  congr 2
  apply dropWhile_congr_here
  intro c _
  simp only [Function.comp_apply, decide_eq_decide]
  exact toLower_eq_symbol (by decide)

theorem rstripSlash_idem (s : Str) :
    rstripSlash (rstripSlash s) = rstripSlash s := by
  unfold rstripSlash
  rw [List.reverse_reverse, List.dropWhile_idempotent]

/-- `rstripSlash s` is a prefix of `s`. -/
theorem rstripSlash_pre (s : Str) : ∃ t, s = rstripSlash s ++ t := by
  unfold rstripSlash
  rcases List.dropWhile_suffix (l := s.reverse) (fun c => c = '/') with ⟨t, ht⟩
  exact ⟨t.reverse, by
    conv_lhs => rw [← s.reverse_reverse, ← ht]
    rw [List.reverse_append]⟩

theorem splitFirst_eq_none_iff (d : Char) :
    ∀ (s : Str), splitFirst d s = none ↔ d ∉ s := by
  intro s
  induction s with
  | nil => simp [splitFirst]
  | cons c r ih =>
    rw [splitFirst]
    by_cases hc : c = d
    · subst hc
      simp
    · rw [if_neg hc]
      cases hr : splitFirst d r with
      | none =>
        constructor
        · intro _
          intro hm
          rcases List.mem_cons.mp hm with he | he
          · exact hc he.symm
          · exact (ih.mp hr) he
        · intro _; rfl
      | some p =>
        constructor
        · intro h; cases h
        · intro h
          exfalso
          have hdr : d ∈ r := by
            by_contra hn
            rw [ih.mpr hn] at hr
            cases hr
          exact h (List.mem_cons_of_mem _ hdr)

theorem splitFirst_spec (d : Char) :
    ∀ (s a b : Str), splitFirst d s = some (a, b) →
      s = a ++ d :: b ∧ d ∉ a := by
  intro s
  induction s with
  | nil => intro a b h; simp [splitFirst] at h
  | cons c r ih =>
    intro a b h
    rw [splitFirst] at h
    by_cases hc : c = d
    · subst hc
      rw [if_pos rfl] at h
      cases h
      exact ⟨rfl, List.not_mem_nil _⟩
    · rw [if_neg hc] at h
      cases hr : splitFirst d r with
      | none => rw [hr] at h; cases h
      | some p =>
        rw [hr] at h
        cases h
        rcases ih p.1 p.2 hr with ⟨he, hm⟩
        refine ⟨by rw [List.cons_append, ← he], ?_⟩
        intro hmem
        rcases List.mem_cons.mp hmem with hmem | hmem
        · exact hc hmem.symm
        · exact hm hmem

theorem splitFirst_append (d : Char) :
    ∀ (a b : Str), d ∉ a → splitFirst d (a ++ d :: b) = some (a, b) := by
  intro a
  induction a with
  | nil => intro b _; simp [splitFirst]
  | cons c r ih =>
    intro b hna
    rw [List.cons_append, splitFirst]
    rw [if_neg (fun hc => hna (by rw [hc]; exact List.mem_cons_self _ _))]
    rw [ih b (fun hm => hna (List.mem_cons_of_mem _ hm))]

theorem splitFirst_no_mem (d : Char) (s : Str) (h : d ∉ s) :
    splitFirst d s = none := (splitFirst_eq_none_iff d s).mpr h

theorem spanTake_spec (p : Char → Bool) :
    ∀ (s : Str), s = (spanTake p s).1 ++ (spanTake p s).2 ∧
      (∀ c ∈ (spanTake p s).1, p c = true) ∧
      ((spanTake p s).2 = [] ∨
        ∃ c r, (spanTake p s).2 = c :: r ∧ p c = false) := by
  intro s
  induction s with
  | nil => exact ⟨rfl, fun c hc => absurd hc (List.not_mem_nil c), Or.inl rfl⟩
  | cons c r ih =>
    rw [spanTake]
    by_cases hc : p c = true
    · rw [if_pos hc]
      refine ⟨?_, ?_, ?_⟩
      · conv_lhs => rw [ih.1]
        rfl
      · intro c' hc'
        rcases List.mem_cons.mp hc' with h' | h'
        · exact h' ▸ hc
        · exact ih.2.1 c' h'
      · exact ih.2.2
    · rw [if_neg hc]
      exact ⟨rfl, fun c' hc' => absurd hc' (List.not_mem_nil c'),
        Or.inr ⟨c, r, rfl, Bool.of_not_eq_true hc⟩⟩

theorem spanTake_append (p : Char → Bool) :
    ∀ (a b : Str), (∀ c ∈ a, p c = true) →
      (b = [] ∨ ∃ c r, b = c :: r ∧ p c = false) →
      spanTake p (a ++ b) = (a, b) := by
  intro a
  induction a with
  | nil =>
    intro b _ hb
    rcases hb with hb | ⟨c, r, hb, hc⟩
    · subst hb; rfl
    · subst hb
      rw [List.nil_append, spanTake, if_neg (by simp [hc])]
  | cons c r ih =>
    intro b ha hb
    rw [List.cons_append, spanTake,
      if_pos (ha c (List.mem_cons_self _ _)),
      ih b (fun c' hc' => ha c' (List.mem_cons_of_mem _ hc')) hb]

theorem fragSplit_no_mem (b : Str) : '#' ∉ (fragSplit b).1 := by
  unfold fragSplit
  cases h : splitFirst '#' b with
  | none => exact (splitFirst_eq_none_iff '#' b).mp h
  | some p => exact (splitFirst_spec '#' b p.1 p.2 h).2

theorem fragSplit_mem (b : Str) : ∀ c, c ∈ (fragSplit b).1 → c ∈ b := by
  unfold fragSplit
  cases h : splitFirst '#' b with
  | none => intro c hc; exact hc
  | some p =>
    intro c hc
    rw [(splitFirst_spec '#' b p.1 p.2 h).1]
    exact List.mem_append_left _ hc

theorem fragSplit_head (b : Str) :
    (fragSplit b).1 = [] ∨ (fragSplit b).1.head? = b.head? := by
  unfold fragSplit
  cases h : splitFirst '#' b with
  | none => exact Or.inr rfl
  | some p =>
    cases hp : p.1 with
    | nil => exact Or.inl rfl
    | cons c r =>
      right
      rw [(splitFirst_spec '#' b p.1 p.2 h).1, hp]
      rfl

theorem querySplit_no_mem (b : Str) : '?' ∉ (querySplit b).1 := by
  unfold querySplit
  cases h : splitFirst '?' b with
  | none => exact (splitFirst_eq_none_iff '?' b).mp h
  | some p => exact (splitFirst_spec '?' b p.1 p.2 h).2

theorem querySplit_mem (b : Str) :
    ∀ c, (c ∈ (querySplit b).1 → c ∈ b) ∧
      (c ∈ (querySplit b).2 → c = '?' ∨ c ∈ b) := by
  unfold querySplit
  cases h : splitFirst '?' b with
  | none =>
    intro c
    exact ⟨fun hc => hc, fun hc => absurd hc (List.not_mem_nil c)⟩
  | some p =>
    intro c
    constructor
    · intro hc
      rw [(splitFirst_spec '?' b p.1 p.2 h).1]
      exact List.mem_append_left _ hc
    · intro hc
      right
      rw [(splitFirst_spec '?' b p.1 p.2 h).1]
      exact List.mem_append_right _ (List.mem_cons_of_mem _ hc)

theorem querySplit_head (b : Str) :
    (querySplit b).1 = [] ∨ (querySplit b).1.head? = b.head? := by
  unfold querySplit
  cases h : splitFirst '?' b with
  | none => exact Or.inr rfl
  | some p =>
    cases hp : p.1 with
    | nil => exact Or.inl rfl
    | cons c r =>
      right
      rw [(splitFirst_spec '?' b p.1 p.2 h).1, hp]
      rfl

/-- Structural invariants of the parsed components, for every input. -/
theorem urlparseTail_inv (scheme rest : Str) :
    (urlparseTail scheme rest).scheme = scheme ∧
      ('/' ∉ (urlparseTail scheme rest).netloc ∧
        '?' ∉ (urlparseTail scheme rest).netloc ∧
        '#' ∉ (urlparseTail scheme rest).netloc) ∧
      ('?' ∉ (urlparseTail scheme rest).path ∧
        '#' ∉ (urlparseTail scheme rest).path) ∧
      '#' ∉ (urlparseTail scheme rest).query ∧
      ((urlparseTail scheme rest).netloc ≠ [] →
        ((urlparseTail scheme rest).path = [] ∨
          ∃ t, (urlparseTail scheme rest).path = '/' :: t)) := by
  unfold urlparseTail netlocSplit
  dsimp only
  split
  · set nl := spanTake (fun c => !(c = '/' || c = '?' || c = '#'))
      (rest.drop 2) with hnl
    have hspec := spanTake_spec (fun c => !(c = '/' || c = '?' || c = '#'))
      (rest.drop 2)
    rw [← hnl] at hspec
    refine ⟨rfl, ?_, ?_, ?_, ?_⟩
    · refine ⟨?_, ?_, ?_⟩ <;>
        (intro hm; have h2 := hspec.2.1 _ hm; simp at h2)
    · constructor
      · exact querySplit_no_mem _
      · intro hm
        exact fragSplit_no_mem nl.2 ((querySplit_mem (fragSplit nl.2).1 '#').1 hm)
    · intro hm
      rcases (querySplit_mem (fragSplit nl.2).1 '#').2 hm with h' | h'
      · cases h'
      · exact fragSplit_no_mem nl.2 h'
    · intro _
      -- head tracking: the remainder after the netloc starts with a
      -- delimiter (or is empty), and both splits preserve a non-deleted
      -- head, so the path is empty or starts with '/'
      rcases hq : (querySplit (fragSplit nl.2).1).1 with _ | ⟨c, t⟩
      · exact Or.inl rfl
      · right
        have hqh := querySplit_head (fragSplit nl.2).1
        rw [hq] at hqh
        rcases hqh with hqh | hqh
        · cases hqh
        · rcases hspec.2.2 with hb | ⟨c', r', hb, hc'⟩
          · rw [hb] at hqh
            rcases fragSplit_head ([] : Str) with hfh | hfh
            · rw [hfh] at hqh; simp at hqh
            · rw [hfh] at hqh; simp at hqh
          · rw [hb] at hqh
            rcases fragSplit_head (c' :: r') with hfh | hfh
            · rw [hfh] at hqh
              simp at hqh
            · rw [hfh] at hqh
              simp only [List.head?_cons, Option.some_inj] at hqh
              -- c is the head of the remainder, which fails the netloc
              -- predicate, so c ∈ {'/', '?', '#'}; '?' and '#' are
              -- excluded by the split lemmas
              have hcin : c = '/' ∨ c = '?' ∨ c = '#' := by
                rw [hqh]
                simp only [Bool.not_eq_false', Bool.or_eq_true,
                  decide_eq_true_eq] at hc'
                tauto
              rcases hcin with hcin | hcin | hcin
              · exact ⟨t, by rw [hcin]⟩
              · exfalso
                apply querySplit_no_mem (fragSplit nl.2).1
                rw [hq, hcin]
                exact List.mem_cons_self _ _
              · exfalso
                apply fragSplit_no_mem nl.2
                refine (querySplit_mem (fragSplit nl.2).1 '#').1 ?_
                rw [hq, hcin]
                exact List.mem_cons_self _ _
  · refine ⟨rfl, ?_, ?_, ?_, ?_⟩
    · exact ⟨List.not_mem_nil _, List.not_mem_nil _, List.not_mem_nil _⟩
    · constructor
      · exact querySplit_no_mem _
      · intro hm
        exact fragSplit_no_mem _ ((querySplit_mem _ '#').1 hm)
    · intro hm
      rcases (querySplit_mem _ '#').2 hm with h' | h'
      · cases h'
      · exact fragSplit_no_mem _ h'
    · intro hne
      exact absurd rfl hne

/-- Strip one leading `www.` label (lines 300–301 of `main.py`). -/
def wwwStrip (n : Str) : Str :=
  if ['w', 'w', 'w', '.'].isPrefixOf n then n.drop 4 else n

/-- Strip a trailing default port (lines 303–306). -/
def portStrip (n : Str) : Str :=
  if [':', '8', '0'].isSuffixOf n then n.dropLast.dropLast.dropLast
  else if [':', '4', '4', '3'].isSuffixOf n then
    n.dropLast.dropLast.dropLast.dropLast
  else n

/-- The per-component transformation `normalize_url` applies between
parsing and re-serialization. -/
def transParts (p : UrlParts) : UrlParts :=
  ⟨p.scheme, portStrip (wwwStrip (lowerStr p.netloc)), rstripSlash p.path,
    urlencode (sortPairs (parse_qsl p.query)), []⟩

/-- `normalize_url` in compositional form. -/
theorem normalize_url_eq (url : Str) :
    normalize_url url = lowerStr (urlunparse (transParts (urlparse url))) :=
  rfl

/-- Componentwise lowering of parsed parts. -/
def lowerParts (p : UrlParts) : UrlParts :=
  ⟨lowerStr p.scheme, lowerStr p.netloc, lowerStr p.path, lowerStr p.query,
    lowerStr p.fragment⟩

theorem lowerStr_append (a b : Str) :
    lowerStr (a ++ b) = lowerStr a ++ lowerStr b := List.map_append _ a b

theorem lowerStr_cons (c : Char) (s : Str) :
    lowerStr (c :: s) = Char.toLower c :: lowerStr s := rfl

theorem lowerStr_take (n : Nat) (s : Str) :
    (lowerStr s).take n = lowerStr (s.take n) := (List.map_take _ s n).symm

theorem lowerStr_eq_symbols (ds : Str)
    (hds : ∀ d ∈ ds,
      d.toNat < 65 ∨ (90 < d.toNat ∧ d.toNat < 97) ∨ 122 < d.toNat) :
    ∀ (t : Str), lowerStr t = ds ↔ t = ds := by
  induction ds with
  | nil => intro t; exact lowerStr_eq_nil_iff t
  | cons d ds ih =>
    intro t
    cases t with
    | nil =>
      simp [lowerStr]
    | cons c t' =>
      rw [lowerStr_cons]
      simp only [List.cons.injEq]
      rw [toLower_eq_symbol (hds d (List.mem_cons_self _ _))]
      rw [ih (fun d' hd' => hds d' (List.mem_cons_of_mem _ hd')) t']

theorem toLower_colon : Char.toLower ':' = ':' := by decide

theorem toLower_slash : Char.toLower '/' = '/' := by decide

theorem toLower_qmark : Char.toLower '?' = '?' := by decide

theorem toLower_hash : Char.toLower '#' = '#' := by decide

/-- Lowering commutes with re-serialization. -/
theorem urlunparse_lower (q : UrlParts) :
    urlunparse (lowerParts q) = lowerStr (urlunparse q) := by
  obtain ⟨s, n, pa, qu, f⟩ := q
  unfold urlunparse lowerParts
  dsimp only
  simp only [ne_eq, lowerStr_eq_nil_iff, lowerStr_take,
    lowerStr_eq_symbols ['/', '/'] (by decide),
    lowerStr_eq_symbols ['/'] (by decide)]
  split_ifs <;>
    simp [lowerStr, List.map_append, toLower_colon, toLower_slash,
      toLower_qmark, toLower_hash]

theorem isSchemeChar_ne_colon {c : Char} (h : isSchemeChar c = true) :
    c ≠ ':' := by
  intro he
  subst he
  exact absurd h (by decide)

/-- Parsing inverts serialization on well-formed absolute parts. -/
theorem urlparse_roundtrip (q : UrlParts)
    (hs2 : lowerStr q.scheme = q.scheme)
    (hs3 : ∃ c cs, q.scheme = c :: cs ∧ c.isAlpha = true)
    (hs4 : q.scheme.all isSchemeChar = true)
    (hn1 : q.netloc ≠ [])
    (hn2 : '/' ∉ q.netloc ∧ '?' ∉ q.netloc ∧ '#' ∉ q.netloc)
    (hp1 : q.path = [] ∨ ∃ t, q.path = '/' :: t)
    (hp2 : '?' ∉ q.path ∧ '#' ∉ q.path)
    (hq1 : '#' ∉ q.query)
    (hf : q.fragment = []) :
    urlparse (urlunparse q) = q := by
  obtain ⟨s, n, pa, qu, f⟩ := q
  dsimp only at hs2 hs3 hs4 hn1 hn2 hp1 hp2 hq1 hf
  subst hf
  obtain ⟨c, cs, hscons, halpha⟩ := hs3
  subst hscons
  -- the serialized string
  have hcond2 : ¬(pa ≠ [] ∧ pa.take 1 ≠ ['/']) := by
    rcases hp1 with hp1 | ⟨t, hp1⟩
    · intro hc; exact hc.1 hp1
    · intro hc; exact hc.2 (by rw [hp1]; rfl)
  have hscheme_ne : (c :: cs) ≠ ([] : Str) := by simp
  have hfrag_ne : ¬(([] : Str) ≠ []) := by simp
  have hunp : urlunparse ⟨c :: cs, n, pa, qu, []⟩ =
      (c :: cs) ++ ':' ::
        ('/' :: '/' :: (n ++ (pa ++ (if qu ≠ [] then '?' :: qu else [])))) := by
    unfold urlunparse
    dsimp only
    rw [if_pos (Or.inl hn1), if_neg hcond2, if_pos hscheme_ne]
    by_cases h4 : qu ≠ []
    · rw [if_pos h4, if_neg hfrag_ne, if_pos h4]
      simp
    · rw [if_neg h4, if_neg hfrag_ne, if_neg h4]
      simp only [ne_eq, not_not] at h4
      simp [h4]
  rw [hunp]
  -- scheme detection
  have hcolon : ':' ∉ c :: cs := by
    intro hm
    have := List.all_eq_true.mp hs4 _ hm
    exact isSchemeChar_ne_colon this rfl
  unfold urlparse
  rw [splitFirst_append ':' (c :: cs) _ hcolon]
  dsimp only
  have hcheck : (c.isAlpha && (c :: cs).all isSchemeChar) = true := by
    rw [Bool.and_eq_true]
    exact ⟨halpha, hs4⟩
  rw [if_pos hcheck]
  rw [hs2]
  -- the tail stages
  unfold urlparseTail
  dsimp only
  have hnls : ∀ (X : Str), netlocSplit ('/' :: '/' :: X) =
      spanTake (fun ch => !(ch = '/' || ch = '?' || ch = '#')) X := by
    intro X
    unfold netlocSplit
    rw [if_pos (show List.take 2 ('/' :: '/' :: X) = ['/', '/'] from rfl)]
    rfl
  rw [hnls]
  have hpred : ∀ x ∈ n, (fun ch => !(ch = '/' || ch = '?' || ch = '#')) x = true := by
    intro x hx
    simp only [Bool.not_eq_true', Bool.or_eq_false_iff, decide_eq_false_iff_not]
    exact ⟨⟨fun he => hn2.1 (he ▸ hx), fun he => hn2.2.1 (he ▸ hx)⟩,
      fun he => hn2.2.2 (he ▸ hx)⟩
  have hbshape : (pa ++ (if qu ≠ [] then '?' :: qu else [])) = [] ∨
      ∃ ch r, (pa ++ (if qu ≠ [] then '?' :: qu else [])) = ch :: r ∧
        (fun ch => !(ch = '/' || ch = '?' || ch = '#')) ch = false := by
    rcases hp1 with hp1 | ⟨t, hp1⟩
    · subst hp1
      by_cases h4 : qu ≠ []
      · rw [if_pos h4]
        exact Or.inr ⟨'?', qu, rfl, by decide⟩
      · rw [if_neg h4]
        exact Or.inl rfl
    · subst hp1
      exact Or.inr ⟨'/', t ++ _, rfl, by decide⟩
  rw [spanTake_append _ n _ hpred hbshape]
  dsimp only
  have hfrag : fragSplit (pa ++ (if qu ≠ [] then '?' :: qu else [])) =
      (pa ++ (if qu ≠ [] then '?' :: qu else []), []) := by
    unfold fragSplit
    rw [splitFirst_no_mem _ _ (by
      intro hm
      rcases List.mem_append.mp hm with hm | hm
      · exact hp2.2 hm
      · by_cases h4 : qu ≠ []
        · rw [if_pos h4] at hm
          rcases List.mem_cons.mp hm with hm | hm
          · cases hm
          · exact hq1 hm
        · rw [if_neg h4] at hm
          cases hm)]
  rw [hfrag]
  dsimp only
  have hquery : querySplit (pa ++ (if qu ≠ [] then '?' :: qu else [])) =
      (pa, qu) := by
    unfold querySplit
    by_cases h4 : qu ≠ []
    · rw [if_pos h4]
      rw [splitFirst_append '?' pa qu hp2.1]
    · rw [if_neg h4]
      push_neg at h4
      subst h4
      rw [List.append_nil]
      rw [splitFirst_no_mem _ _ hp2.1]
  rw [hquery]

theorem toLower_isAlpha {c : Char} (h : c.isAlpha = true) :
    (Char.toLower c).isAlpha = true := by
  by_cases hu : 65 ≤ c.toNat ∧ c.toNat ≤ 90
  · have hl := toLower_of_upper c hu
    have hlo : (Char.toLower c).isLower = true := by
      rw [isLower_iff]
      omega
    simp [Char.isAlpha, hlo]
  · rw [toLower_of_not_upper c hu]
    exact h

theorem toLower_schemeChar {c : Char} (h : isSchemeChar c = true) :
    isSchemeChar (Char.toLower c) = true := by
  by_cases hu : 65 ≤ c.toNat ∧ c.toNat ≤ 90
  · have hl := toLower_of_upper c hu
    have hlo : (Char.toLower c).isLower = true := by
      rw [isLower_iff]
      omega
    simp [isSchemeChar, Char.isAlphanum, Char.isAlpha, hlo]
  · rw [toLower_of_not_upper c hu]
    exact h

/-- Invariants of a full parse: component character constraints, the
scheme's shape, and the path's leading slash when a netloc is present. -/
theorem urlparse_inv (url : Str) (dflt : Str) :
    ('/' ∉ (urlparse url dflt).netloc ∧ '?' ∉ (urlparse url dflt).netloc ∧
      '#' ∉ (urlparse url dflt).netloc) ∧
    ('?' ∉ (urlparse url dflt).path ∧ '#' ∉ (urlparse url dflt).path) ∧
    '#' ∉ (urlparse url dflt).query ∧
    ((urlparse url dflt).netloc ≠ [] →
      ((urlparse url dflt).path = [] ∨
        ∃ t, (urlparse url dflt).path = '/' :: t)) ∧
    ((urlparse url dflt).scheme = dflt ∨
      ((∃ c cs, (urlparse url dflt).scheme = c :: cs ∧ c.isAlpha = true) ∧
        (urlparse url dflt).scheme.all isSchemeChar = true ∧
        lowerStr (urlparse url dflt).scheme = (urlparse url dflt).scheme)) := by
  unfold urlparse
  cases h1 : splitFirst ':' url with
  | none =>
    have h := urlparseTail_inv dflt url
    exact ⟨h.2.1, h.2.2.1, h.2.2.2.1, h.2.2.2.2, Or.inl h.1⟩
  | some p =>
    obtain ⟨pre, post⟩ := p
    dsimp only
    cases pre with
    | nil =>
      dsimp only
      have h := urlparseTail_inv dflt url
      exact ⟨h.2.1, h.2.2.1, h.2.2.2.1, h.2.2.2.2, Or.inl h.1⟩
    | cons c cs =>
      dsimp only
      by_cases hc : (c.isAlpha && (c :: cs).all isSchemeChar) = true
      · rw [if_pos hc]
        have h := urlparseTail_inv (lowerStr (c :: cs)) post
        refine ⟨h.2.1, h.2.2.1, h.2.2.2.1, h.2.2.2.2, Or.inr ?_⟩
        rw [h.1]
        rw [Bool.and_eq_true] at hc
        refine ⟨⟨Char.toLower c, lowerStr cs, rfl, toLower_isAlpha hc.1⟩,
          ?_, lowerStr_idem _⟩
        rw [List.all_eq_true] at hc ⊢
        intro x hx
        rcases List.mem_map.mp hx with ⟨x', hx', he⟩
        rw [← he]
        exact toLower_schemeChar (hc.2 x' hx')
      · rw [if_neg hc]
        have h := urlparseTail_inv dflt url
        exact ⟨h.2.1, h.2.2.1, h.2.2.2.1, h.2.2.2.2, Or.inl h.1⟩

theorem quote_plus_tame :
    ∀ (s : Str), (∀ c ∈ s, tameChar c = true) → quote_plus s = s := by
  intro s
  induction s with
  | nil => intro _; rfl
  | cons c r ih =>
    intro h
    have hc := h c (List.mem_cons_self _ _)
    have hne := tameChar_ne hc
    unfold quote_plus
    rw [List.flatMap_cons]
    rw [if_neg hne.1, if_pos (tameChar_alwaysSafe hc)]
    have := ih fun c' hc' => h c' (List.mem_cons_of_mem _ hc')
    unfold quote_plus at this
    rw [this]
    rfl

theorem unquote_plus_cons_safe (c : Char) (r : Str) (h1 : c ≠ '+')
    (h2 : c ≠ '%') :
    unquote_plus (c :: r) = c :: unquote_plus r := by
  conv_lhs => unfold unquote_plus
  split
  · rename_i heq
    simp at heq
  · rename_i heq
    exact absurd (List.cons.inj heq).1 h1
  · rename_i heq
    exact absurd (List.cons.inj heq).1 h2
  · rename_i heq
    obtain ⟨h3, h4⟩ := List.cons.inj heq
    subst h3
    subst h4
    rfl

theorem unquote_plus_tame (s : Str) (h : ∀ c ∈ s, tameChar c = true) :
    unquote_plus s = s := by
  induction s with
  | nil => rfl
  | cons c r ih =>
    have hne := tameChar_ne (h c (List.mem_cons_self _ _))
    rw [unquote_plus_cons_safe c r hne.2.2.1 hne.2.1]
    rw [ih fun c' hc' => h c' (List.mem_cons_of_mem _ hc')]

theorem splitAllGo_no_mem (d : Char) :
    ∀ (rest acc : Str), d ∉ rest →
      splitAllGo d acc rest = [acc.reverse ++ rest] := by
  intro rest
  induction rest with
  | nil => intro acc _; simp [splitAllGo]
  | cons c r ih =>
    intro acc h
    rw [splitAllGo]
    rw [if_neg (fun hc => h (by rw [← hc]; exact List.mem_cons_self _ _))]
    rw [ih (c :: acc) (fun hm => h (List.mem_cons_of_mem _ hm))]
    simp

theorem splitAllGo_append (d : Char) :
    ∀ (a b acc : Str), d ∉ a →
      splitAllGo d acc (a ++ d :: b) =
        (acc.reverse ++ a) :: splitAllGo d [] b := by
  intro a
  induction a with
  | nil =>
    intro b acc _
    rw [List.nil_append, splitAllGo, if_pos rfl]
    simp
  | cons c r ih =>
    intro b acc h
    rw [List.cons_append, splitAllGo]
    rw [if_neg (fun hc => h (by rw [← hc]; exact List.mem_cons_self _ _))]
    rw [ih b (c :: acc) (fun hm => h (List.mem_cons_of_mem _ hm))]
    simp

theorem splitAll_joinSep (d : Char) :
    ∀ (pieces : List Str), pieces ≠ [] → (∀ p ∈ pieces, d ∉ p) →
      splitAll d (joinSep d pieces) = pieces := by
  intro pieces
  induction pieces with
  | nil => intro h _; exact absurd rfl h
  | cons x rest ih =>
    intro _ hmem
    cases rest with
    | nil =>
      rw [joinSep]
      unfold splitAll
      rw [splitAllGo_no_mem d x [] (hmem x (List.mem_cons_self _ _))]
      rfl
    | cons y t =>
      rw [show joinSep d (x :: y :: t) = x ++ d :: joinSep d (y :: t) from rfl]
      unfold splitAll
      rw [splitAllGo_append d x _ [] (hmem x (List.mem_cons_self _ _))]
      rw [List.reverse_nil, List.nil_append]
      have := ih (by simp) (fun p hp => hmem p (List.mem_cons_of_mem _ hp))
      unfold splitAll at this
      rw [this]

/-- The pair strings `urlencode` serializes, when every character is
tame: no quoting happens. -/
theorem urlencode_tame_eq (L : List (Str × Str))
    (h : ∀ kv ∈ L, (∀ c ∈ kv.1, tameChar c = true) ∧
      (∀ c ∈ kv.2, tameChar c = true)) :
    urlencode L = joinSep '&' (L.map fun kv => kv.1 ++ '=' :: kv.2) := by
  unfold urlencode
  congr 1
  refine List.map_congr_left ?_
  intro kv hkv
  rw [quote_plus_tame kv.1 (h kv hkv).1, quote_plus_tame kv.2 (h kv hkv).2]

theorem mem_joinSep (d : Char) :
    ∀ (pieces : List Str) (c : Char), c ∈ joinSep d pieces →
      c = d ∨ ∃ p ∈ pieces, c ∈ p := by
  intro pieces
  induction pieces with
  | nil => intro c hc; cases hc
  | cons x rest ih =>
    intro c hc
    cases rest with
    | nil => exact Or.inr ⟨x, List.mem_cons_self _ _, hc⟩
    | cons y t =>
      rw [show joinSep d (x :: y :: t) = x ++ d :: joinSep d (y :: t) from
        rfl] at hc
      rcases List.mem_append.mp hc with hc | hc
      · exact Or.inr ⟨x, List.mem_cons_self _ _, hc⟩
      · rcases List.mem_cons.mp hc with hc | hc
        · exact Or.inl hc
        · rcases ih c hc with hc | ⟨p, hp, hcp⟩
          · exact Or.inl hc
          · exact Or.inr ⟨p, List.mem_cons_of_mem _ hp, hcp⟩

/-- Every character of a tame `urlencode` output is tame, `&` or `=`. -/
theorem mem_urlencode_tame (L : List (Str × Str))
    (h : ∀ kv ∈ L, (∀ c ∈ kv.1, tameChar c = true) ∧
      (∀ c ∈ kv.2, tameChar c = true)) :
    ∀ c ∈ urlencode L, tameChar c = true ∨ c = '&' ∨ c = '=' := by
  intro c hc
  rw [urlencode_tame_eq L h] at hc
  rcases mem_joinSep '&' _ c hc with hc | ⟨p, hp, hcp⟩
  · exact Or.inr (Or.inl hc)
  · rcases List.mem_map.mp hp with ⟨kv, hkv, he⟩
    rw [← he] at hcp
    rcases List.mem_append.mp hcp with hcp | hcp
    · exact Or.inl ((h kv hkv).1 c hcp)
    · rcases List.mem_cons.mp hcp with hcp | hcp
      · exact Or.inr (Or.inr hcp)
      · exact Or.inl ((h kv hkv).2 c hcp)

/-- Parsing inverts encoding on tame pairs with non-empty values. -/
theorem parse_qsl_urlencode (L : List (Str × Str))
    (h : ∀ kv ∈ L, (∀ c ∈ kv.1, tameChar c = true) ∧
      (∀ c ∈ kv.2, tameChar c = true))
    (hv : ∀ kv ∈ L, kv.2 ≠ []) :
    parse_qsl (urlencode L) = L := by
  cases hL : L with
  | nil => rfl
  | cons kv0 rest =>
    rw [← hL]
    rw [urlencode_tame_eq L h]
    unfold parse_qsl
    rw [splitAll_joinSep '&' _ (by rw [hL]; simp) ?notamp]
    case notamp =>
      intro p hp hmem
      rcases List.mem_map.mp hp with ⟨kv, hkv, he⟩
      rw [← he] at hmem
      rcases List.mem_append.mp hmem with hm | hm
      · exact absurd rfl (tameChar_ne ((h kv hkv).1 _ hm)).2.2.2.1
      · rcases List.mem_cons.mp hm with hm | hm
        · cases hm
        · exact absurd rfl (tameChar_ne ((h kv hkv).2 _ hm)).2.2.2.1
    -- fold the pieces back into pairs
    clear hL
    induction L with
    | nil => rfl
    | cons kv t ih =>
      rw [List.map_cons, List.foldr_cons]
      have hkv := h kv (List.mem_cons_self _ _)
      have heq : ∀ c ∈ kv.1, c ≠ '=' := fun c hc =>
        (tameChar_ne (hkv.1 c hc)).2.2.2.2.1
      rw [ih (fun kv' hkv' => h kv' (List.mem_cons_of_mem _ hkv'))
        (fun kv' hkv' => hv kv' (List.mem_cons_of_mem _ hkv'))]
      rw [if_neg (by
        intro hc
        rcases List.append_eq_nil.mp hc with ⟨_, hc2⟩
        cases hc2)]
      rw [splitFirst_append '=' kv.1 kv.2
        (fun hm => heq '=' hm rfl)]
      dsimp only
      rw [if_neg (hv kv (List.mem_cons_self _ _))]
      rw [unquote_plus_tame kv.1 hkv.1, unquote_plus_tame kv.2 hkv.2]

theorem strLE_cons (x y : Char) (xs ys : Str) :
    strLE (x :: xs) (y :: ys) =
      (if x.toNat < y.toNat then true
       else if y.toNat < x.toNat then false else strLE xs ys) := rfl

theorem strLE_cons_nil (x : Char) (xs : Str) : strLE (x :: xs) [] = false := rfl

theorem strLE_cons_iff (x y : Char) (xs ys : Str) :
    strLE (x :: xs) (y :: ys) = true ↔
      x.toNat < y.toNat ∨ (x.toNat = y.toNat ∧ strLE xs ys = true) := by
  rw [strLE_cons]
  split_ifs with h1 h2
  · simp only [true_iff]
    exact Or.inl h1
  · simp only [false_iff]
    rintro (h | ⟨h, _⟩) <;> omega
  · have hxy : x.toNat = y.toNat := by omega
    constructor
    · intro h
      exact Or.inr ⟨hxy, h⟩
    · rintro (h | ⟨_, h⟩)
      · omega
      · exact h

theorem strLE_total : ∀ (a b : Str), strLE a b = true ∨ strLE b a = true := by
  intro a
  induction a with
  | nil => intro b; exact Or.inl rfl
  | cons x xs ih =>
    intro b
    cases b with
    | nil => exact Or.inr rfl
    | cons y ys =>
      rcases Nat.lt_trichotomy x.toNat y.toNat with h | h | h
      · exact Or.inl ((strLE_cons_iff x y xs ys).mpr (Or.inl h))
      · rcases ih ys with h' | h'
        · exact Or.inl ((strLE_cons_iff x y xs ys).mpr (Or.inr ⟨h, h'⟩))
        · exact Or.inr ((strLE_cons_iff y x ys xs).mpr (Or.inr ⟨h.symm, h'⟩))
      · exact Or.inr ((strLE_cons_iff y x ys xs).mpr (Or.inl h))

theorem strLE_trans :
    ∀ (a b c : Str), strLE a b = true → strLE b c = true →
      strLE a c = true := by
  intro a
  induction a with
  | nil => intro b c _ _; rfl
  | cons x xs ih =>
    intro b c hab hbc
    cases b with
    | nil => rw [strLE_cons_nil] at hab; cases hab
    | cons y ys =>
      cases c with
      | nil => rw [strLE_cons_nil] at hbc; cases hbc
      | cons z zs =>
        rw [strLE_cons_iff] at hab hbc ⊢
        rcases hab with h1 | ⟨h1, h1'⟩ <;> rcases hbc with h2 | ⟨h2, h2'⟩
        · exact Or.inl (by omega)
        · exact Or.inl (by omega)
        · exact Or.inl (by omega)
        · exact Or.inr ⟨by omega, ih ys zs h1' h2'⟩

theorem strLE_antisymm :
    ∀ (a b : Str), strLE a b = true → strLE b a = true → a = b := by
  intro a
  induction a with
  | nil =>
    intro b _ hba
    cases b with
    | nil => rfl
    | cons y ys => rw [strLE_cons_nil] at hba; cases hba
  | cons x xs ih =>
    intro b hab hba
    cases b with
    | nil => rw [strLE_cons_nil] at hab; cases hab
    | cons y ys =>
      rw [strLE_cons_iff] at hab hba
      have hxy : x.toNat = y.toNat := by
        rcases hab with h1 | ⟨h1, _⟩ <;> rcases hba with h2 | ⟨h2, _⟩ <;> omega
      have hx : x = y := char_eq_of_toNat_eq hxy
      subst hx
      rcases hab with h1 | ⟨_, h1'⟩
      · omega
      · rcases hba with h2 | ⟨_, h2'⟩
        · omega
        · rw [ih ys h1' h2']

theorem pairLE_def (a b : Str × Str) :
    pairLE a b = if a.1 = b.1 then strLE a.2 b.2 else strLE a.1 b.1 := rfl

theorem pairLE_total :
    ∀ (a b : Str × Str), pairLE a b = true ∨ pairLE b a = true := by
  intro a b
  rw [pairLE_def, pairLE_def]
  by_cases h : a.1 = b.1
  · rw [if_pos h, if_pos h.symm]
    exact strLE_total a.2 b.2
  · rw [if_neg h, if_neg (Ne.symm h)]
    exact strLE_total a.1 b.1

theorem pairLE_trans :
    ∀ (a b c : Str × Str), pairLE a b = true → pairLE b c = true →
      pairLE a c = true := by
  intro a b c hab hbc
  rw [pairLE_def] at hab hbc ⊢
  by_cases h1 : a.1 = b.1 <;> by_cases h2 : b.1 = c.1
  · rw [if_pos h1] at hab
    rw [if_pos h2] at hbc
    rw [if_pos (h1.trans h2)]
    exact strLE_trans _ _ _ hab hbc
  · rw [if_pos h1] at hab
    rw [if_neg h2] at hbc
    rw [if_neg (fun hc => h2 (h1.symm.trans hc)), h1]
    exact hbc
  · rw [if_neg h1] at hab
    rw [if_pos h2] at hbc
    rw [if_neg (fun hc => h1 (hc.trans h2.symm)), ← h2]
    exact hab
  · rw [if_neg h1] at hab
    rw [if_neg h2] at hbc
    by_cases h3 : a.1 = c.1
    · rw [← h3] at hbc
      exact absurd (strLE_antisymm a.1 b.1 hab hbc) h1
    · rw [if_neg h3]
      exact strLE_trans _ _ _ hab hbc

theorem pairLE_antisymm :
    ∀ (a b : Str × Str), pairLE a b = true → pairLE b a = true → a = b := by
  intro a b hab hba
  rw [pairLE_def] at hab hba
  by_cases h : a.1 = b.1
  · rw [if_pos h] at hab
    rw [if_pos h.symm] at hba
    exact Prod.ext h (strLE_antisymm a.2 b.2 hab hba)
  · rw [if_neg h] at hab
    rw [if_neg (Ne.symm h)] at hba
    exact absurd (strLE_antisymm a.1 b.1 hab hba) h

instance : IsTotal (Str × Str) (fun a b => pairLE a b = true) := ⟨pairLE_total⟩

instance : IsTrans (Str × Str) (fun a b => pairLE a b = true) := ⟨pairLE_trans⟩

instance : IsAntisymm (Str × Str) (fun a b => pairLE a b = true) :=
  ⟨pairLE_antisymm⟩

theorem sortPairs_sorted (l : List (Str × Str)) :
    List.Sorted (fun a b => pairLE a b = true) (sortPairs l) :=
  List.sorted_insertionSort _ l

theorem sortPairs_idem (l : List (Str × Str)) :
    sortPairs (sortPairs l) = sortPairs l :=
  List.Sorted.insertionSort_eq (sortPairs_sorted l)

theorem mem_sortPairs (kv : Str × Str) (l : List (Str × Str)) :
    kv ∈ sortPairs l ↔ kv ∈ l :=
  List.mem_insertionSort _

theorem unquote_plus_ne_nil (x : Char) (r : Str) :
    unquote_plus (x :: r) ≠ [] := by
  by_cases h1 : x = '+'
  · subst h1
    show ' ' :: unquote_plus r ≠ []
    simp
  · by_cases h2 : x = '%'
    · subst h2
      match r with
      | [] => decide
      | [a] =>
        show '%' :: unquote_plus [a] ≠ []
        simp
      | a :: b :: t =>
        show (match hexVal a, hexVal b with
          | some ha, some hb => Char.ofNat (16 * ha + hb) :: unquote_plus t
          | _, _ => '%' :: unquote_plus (a :: b :: t)) ≠ []
        split <;> simp
    · rw [unquote_plus_cons_safe x r h1 h2]
      simp

theorem parse_qsl_foldr_val (pieces : List Str) :
    ∀ kv ∈ pieces.foldr
      (fun nv acc =>
        if nv = [] then acc
        else match splitFirst '=' nv with
          | none => acc
          | some (n, v) =>
            if v = [] then acc else (unquote_plus n, unquote_plus v) :: acc)
      [], kv.2 ≠ [] := by
  induction pieces with
  | nil => intro kv hkv; cases hkv
  | cons p rest ih =>
    intro kv hkv
    rw [List.foldr_cons] at hkv
    split at hkv
    · exact ih kv hkv
    · split at hkv
      · exact ih kv hkv
      · split at hkv
        · exact ih kv hkv
        · rcases List.mem_cons.mp hkv with h | h
          · rename_i n v heq hv
            rw [h]
            dsimp only
            cases v with
            | nil => exact absurd rfl hv
            | cons c u => exact unquote_plus_ne_nil c u
          · exact ih kv h

/-- `parse_qsl` never produces an empty value
(`keep_blank_values=False`). -/
theorem parse_qsl_val_ne_nil (qs : Str) :
    ∀ kv ∈ parse_qsl qs, kv.2 ≠ [] :=
  parse_qsl_foldr_val (splitAll '&' qs)

theorem lowerStr_drop (s : Str) (n : Nat) :
    lowerStr (s.drop n) = (lowerStr s).drop n :=
  List.map_drop Char.toLower s n

theorem lowerStr_dropLast (s : Str) :
    lowerStr s.dropLast = (lowerStr s).dropLast :=
  List.map_dropLast Char.toLower s

theorem lowerStr_fixed_of_forall (s : Str)
    (h : ∀ c ∈ s, Char.toLower c = c) : lowerStr s = s := by
  unfold lowerStr
  induction s with
  | nil => rfl
  | cons c r ih =>
    rw [List.map_cons, h c (List.mem_cons_self _ _),
      ih fun c' hc' => h c' (List.mem_cons_of_mem _ hc')]

theorem wwwStrip_lower_fixed {s : Str} (h : lowerStr s = s) :
    lowerStr (wwwStrip s) = wwwStrip s := by
  unfold wwwStrip
  split
  · rw [lowerStr_drop, h]
  · exact h

theorem portStrip_lower_fixed {s : Str} (h : lowerStr s = s) :
    lowerStr (portStrip s) = portStrip s := by
  unfold portStrip
  split
  · rw [lowerStr_dropLast, lowerStr_dropLast, lowerStr_dropLast, h]
  · split
    · rw [lowerStr_dropLast, lowerStr_dropLast, lowerStr_dropLast,
        lowerStr_dropLast, h]
    · exact h

/-- The netloc `normalize_url` produces is already fully lowercase. -/
theorem transParts_netloc_lower (p : UrlParts) :
    lowerStr (transParts p).netloc = (transParts p).netloc :=
  portStrip_lower_fixed (wwwStrip_lower_fixed (lowerStr_idem p.netloc))

theorem wwwStrip_subset (s : Str) : wwwStrip s ⊆ s := by
  unfold wwwStrip
  split
  · exact List.drop_subset 4 s
  · exact fun x hx => hx

theorem portStrip_subset (s : Str) : portStrip s ⊆ s := by
  unfold portStrip
  split
  · intro x hx
    exact List.dropLast_subset s
      (List.dropLast_subset _ (List.dropLast_subset _ hx))
  · split
    · intro x hx
      exact List.dropLast_subset s (List.dropLast_subset _
        (List.dropLast_subset _ (List.dropLast_subset _ hx)))
    · exact fun x hx => hx

theorem rstripSlash_subset (s : Str) : rstripSlash s ⊆ s := by
  rcases rstripSlash_pre s with ⟨t, ht⟩
  intro x hx
  rw [ht]
  exact List.mem_append.mpr (Or.inl hx)

/-- Stripping trailing slashes from a slash-headed string leaves it empty
or still slash-headed. -/
theorem rstripSlash_slash_head (t : Str) :
    rstripSlash ('/' :: t) = [] ∨
      ∃ u, rstripSlash ('/' :: t) = '/' :: u := by
  rcases rstripSlash_pre ('/' :: t) with ⟨w, hw⟩
  cases hr : rstripSlash ('/' :: t) with
  | nil => exact Or.inl rfl
  | cons c u =>
    rw [hr, List.cons_append] at hw
    exact Or.inr ⟨u, by rw [((List.cons.inj hw).1).symm]⟩

/-- Characters of a tame query serialization are fixed by lowering. -/
theorem lowerStr_query_fixed (L : List (Str × Str))
    (h : ∀ kv ∈ L, (∀ c ∈ kv.1, tameChar c = true) ∧
      (∀ c ∈ kv.2, tameChar c = true)) :
    lowerStr (urlencode L) = urlencode L := by
  apply lowerStr_fixed_of_forall
  intro c hc
  rcases mem_urlencode_tame L h c hc with hcc | hcc | hcc
  · exact tameChar_toLower hcc
  · subst hcc; decide
  · subst hcc; decide

/-- A query pair built only from tame characters. -/
def tamePair (kv : Str × Str) : Bool :=
  kv.1.all tameChar && kv.2.all tameChar

/-- The well-formedness under which `normalize_url` is idempotent: the
URL is absolute (nonempty scheme), its normalized netloc is nonempty and
free of a further `www.` label or default-port suffix, and its query
pairs use only tame characters. -/
def GoodUrl (x : Str) : Bool :=
  decide ((urlparse x).scheme ≠ []) &&
    decide (portStrip (wwwStrip (lowerStr (urlparse x).netloc)) ≠ []) &&
    decide (wwwStrip (portStrip (wwwStrip (lowerStr (urlparse x).netloc))) =
      portStrip (wwwStrip (lowerStr (urlparse x).netloc))) &&
    decide (portStrip (portStrip (wwwStrip (lowerStr (urlparse x).netloc))) =
      portStrip (wwwStrip (lowerStr (urlparse x).netloc))) &&
    (parse_qsl (urlparse x).query).all tamePair

theorem goodUrl_spec {x : Str} (hg : GoodUrl x = true) :
    (urlparse x).scheme ≠ [] ∧
    portStrip (wwwStrip (lowerStr (urlparse x).netloc)) ≠ [] ∧
    wwwStrip (portStrip (wwwStrip (lowerStr (urlparse x).netloc))) =
      portStrip (wwwStrip (lowerStr (urlparse x).netloc)) ∧
    portStrip (portStrip (wwwStrip (lowerStr (urlparse x).netloc))) =
      portStrip (wwwStrip (lowerStr (urlparse x).netloc)) ∧
    ∀ kv ∈ parse_qsl (urlparse x).query,
      (∀ c ∈ kv.1, tameChar c = true) ∧ (∀ c ∈ kv.2, tameChar c = true) := by
  unfold GoodUrl at hg
  simp only [Bool.and_eq_true, decide_eq_true_eq, List.all_eq_true] at hg
  refine ⟨hg.1.1.1.1, hg.1.1.1.2, hg.1.1.2, hg.1.2, ?_⟩
  intro kv hkv
  have h := hg.2 kv hkv
  simp only [tamePair, Bool.and_eq_true, List.all_eq_true] at h
  exact h

/-- Re-parsing a normalized URL recovers the lowered transformed parts. -/
theorem urlparse_normalize (x : Str) (hg : GoodUrl x = true) :
    urlparse (normalize_url x) = lowerParts (transParts (urlparse x)) := by
  obtain ⟨hs, hn, _, _, hq⟩ := goodUrl_spec hg
  have inv := urlparse_inv x []
  have hsh := inv.2.2.2.2.resolve_left hs
  have hNfix : lowerStr (portStrip (wwwStrip (lowerStr (urlparse x).netloc))) =
      portStrip (wwwStrip (lowerStr (urlparse x).netloc)) :=
    transParts_netloc_lower (urlparse x)
  rw [normalize_url_eq, ← urlunparse_lower]
  apply urlparse_roundtrip
  case hs2 => exact lowerStr_idem _
  case hs3 =>
    dsimp only [lowerParts, transParts]
    rw [hsh.2.2]
    exact hsh.1
  case hs4 =>
    dsimp only [lowerParts, transParts]
    rw [hsh.2.2]
    exact hsh.2.1
  case hn1 =>
    dsimp only [lowerParts, transParts]
    rw [hNfix]
    exact hn
  case hn2 =>
    dsimp only [lowerParts, transParts]
    rw [hNfix]
    refine ⟨fun hm => inv.1.1 ?_, fun hm => inv.1.2.1 ?_,
      fun hm => inv.1.2.2 ?_⟩ <;>
      exact (mem_lowerStr_symbol (by decide) _).mp
        (wwwStrip_subset _ (portStrip_subset _ hm))
  case hp1 =>
    dsimp only [lowerParts, transParts]
    have hnet_ne : (urlparse x).netloc ≠ [] := by
      intro h0
      apply hn
      rw [h0]
      rfl
    rcases inv.2.2.2.1 hnet_ne with hp0 | ⟨t, hpt⟩
    · rw [hp0]
      left
      rfl
    · rw [hpt]
      rcases rstripSlash_slash_head t with h0 | ⟨u, hu⟩
      · rw [h0]
        left
        rfl
      · rw [hu]
        right
        exact ⟨lowerStr u, by rw [lowerStr_cons, toLower_slash]⟩
  case hp2 =>
    dsimp only [lowerParts, transParts]
    constructor
    · intro hm
      exact inv.2.1.1
        (rstripSlash_subset _ ((mem_lowerStr_symbol (by decide) _).mp hm))
    · intro hm
      exact inv.2.1.2
        (rstripSlash_subset _ ((mem_lowerStr_symbol (by decide) _).mp hm))
  case hq1 =>
    dsimp only [lowerParts, transParts]
    intro hm
    have hqt : ∀ kv ∈ sortPairs (parse_qsl (urlparse x).query),
        (∀ c ∈ kv.1, tameChar c = true) ∧ (∀ c ∈ kv.2, tameChar c = true) :=
      fun kv hkv => hq kv ((mem_sortPairs kv _).mp hkv)
    have hm' := (mem_lowerStr_symbol (by decide) _).mp hm
    rcases mem_urlencode_tame _ hqt '#' hm' with hcc | hcc | hcc
    · exact (tameChar_ne hcc).2.2.2.2.2 rfl
    · exact absurd hcc (by decide)
    · exact absurd hcc (by decide)
  case hf => rfl

/-- The per-component transformation is the identity on the parts a
normalization has already produced. -/
theorem transParts_fixed (x : Str) (hg : GoodUrl x = true) :
    transParts (lowerParts (transParts (urlparse x))) =
      lowerParts (transParts (urlparse x)) := by
  obtain ⟨_, _, hw, hp, hq⟩ := goodUrl_spec hg
  have hNfix : lowerStr (portStrip (wwwStrip (lowerStr (urlparse x).netloc))) =
      portStrip (wwwStrip (lowerStr (urlparse x).netloc)) :=
    transParts_netloc_lower (urlparse x)
  have hqt : ∀ kv ∈ sortPairs (parse_qsl (urlparse x).query),
      (∀ c ∈ kv.1, tameChar c = true) ∧ (∀ c ∈ kv.2, tameChar c = true) :=
    fun kv hkv => hq kv ((mem_sortPairs kv _).mp hkv)
  have hqv : ∀ kv ∈ sortPairs (parse_qsl (urlparse x).query), kv.2 ≠ [] :=
    fun kv hkv => parse_qsl_val_ne_nil _ kv ((mem_sortPairs kv _).mp hkv)
  have hQfix := lowerStr_query_fixed _ hqt
  unfold transParts lowerParts
  dsimp only
  rw [UrlParts.mk.injEq]
  refine ⟨rfl, ?_, ?_, ?_, rfl⟩
  · rw [lowerStr_idem, hNfix, hw, hp]
  · rw [rstripSlash_lower_comm, rstripSlash_idem]
  · rw [hQfix, parse_qsl_urlencode _ hqt hqv, sortPairs_idem]

/-- Idempotence of `normalize_url` on well-formed inputs. -/
theorem normalize_url_idem_of_good (x : Str) (hg : GoodUrl x = true) :
    normalize_url (normalize_url x) = normalize_url x := by
  rw [normalize_url_eq (normalize_url x), urlparse_normalize x hg,
    transParts_fixed x hg, urlunparse_lower, lowerStr_idem,
    ← normalize_url_eq]

/-- C9: `normalize_url` is NOT idempotent on every URL string.  The
query `B=1&a=2` is already sorted (uppercase `B` precedes lowercase
`a` in code-point order), but the final `lower()` of the whole URL
lowercases it to `b=1&a=2`, which a second normalization re-sorts to
`a=2&b=1`. -/
theorem c9_counterexample :
    normalize_url (normalize_url ("http://e.com/p?B=1&a=2".data)) ≠
      normalize_url ("http://e.com/p?B=1&a=2".data) := by decide

/-- C9 (amended): `normalize_url` is a pure function (equal inputs give
equal outputs), the spec's two concrete normalization identities hold,
and idempotence holds on every `GoodUrl` input — an absolute URL whose
normalized netloc is nonempty and carries no further `www.` label or
default-port suffix, and whose query pairs use only tame characters
(lowercase letters, digits, `_ . - ~`).  Unrestricted idempotence is
refuted by the counterexample: the final `lower()` can unsort a query
whose keys mix cases. -/
theorem c9_amended_theorem :
    (∀ x y : Str, x = y → normalize_url x = normalize_url y) ∧
    normalize_url ("HTTP://WWW.Example.com:80/a/".data) =
      normalize_url ("http://example.com/a".data) ∧
    normalize_url ("http://e.com/a?b=1&a=2".data) =
      normalize_url ("http://e.com/a?a=2&b=1".data) ∧
    (∀ x : Str, GoodUrl x = true →
      normalize_url (normalize_url x) = normalize_url x) := by
  refine ⟨fun x y h => by rw [h], by decide, by decide, ?_⟩
  exact normalize_url_idem_of_good

/-- C9 witness: a concrete well-formed URL on which the amended
idempotence applies, its hypothesis discharged by evaluation. -/
theorem c9_amended_witness :
    GoodUrl ("http://example.com/a?b=1&a=2".data) = true ∧
    normalize_url (normalize_url ("http://example.com/a?b=1&a=2".data)) =
      normalize_url ("http://example.com/a?b=1&a=2".data) :=
  ⟨by decide, c9_amended_theorem.2.2.2 _ (by decide)⟩
